import Mathlib

/-!
Verification development for the lsst_git_changelog repository.

This file gives a shallow embedding, in Lean 4, of the reconciliation core of
the repository: the tag parser and ordering (src/rubin_changelog/tag.py), the
ticket attributor (ChangeLogData._process_tags / ChangeLogData.process in
src/rubin_changelog/changelog.py), the release merger (ChangeLog.merge_releases)
and the retrying fetch helper (ChangeLog._fetch / ChangeLog._get_package_repos).

Modelling conventions, applied throughout:
* Python strings are Lean `String`s; regular expressions are translated into
  explicit character-list parsers that follow the concrete regex of the source.
  The `\d` class and `str.upper`/`str.lower` are modelled over ASCII (the tag
  names and branch names handled by this program are ASCII).  The anchored
  regexes use `^...$`; we model them as full-string matches (the lone
  difference, a trailing newline accepted by Python's `$`, cannot occur in tag
  names).
* Python `int` is Lean `Int` (arbitrary precision in both).
* Timestamps are ISO-8601 UTC strings throughout the source; the code compares
  them both as strings and as parsed `datetime`s, and in this fixed format the
  two orders coincide, so dates are modelled as `String` ordered by `String.lt`
  and `dateutil.parser.parse` / `strftime` become the identity on that
  representation.
* A Python `dict` is an association list in insertion order (new keys are
  appended, updates are in place); a `sortedcontainers.SortedDict` /
  `SortedList` is an association list kept sorted by key, with `bisect_right`
  (stable-after-equals) insertion.
* An uncaught Python exception (KeyError on a subscript, ValueError from
  `int`, TypeError from parsing `None`) is a `none` result of an
  `Option`-valued translation; exceptions caught by the source (the
  `try/except ValueError` of `Tag._regular`, the bare `except` of
  `ChangeLog._fetch`) stay inside the corresponding total function.
-/

/-! ## Small helpers: digits, separators, association lists -/

/-- ASCII decimal digit test, modelling the character class `\d` as used on the
tag names of this program. -/
def isDig (c : Char) : Bool :=
  decide (c = '0' ∨ c = '1' ∨ c = '2' ∨ c = '3' ∨ c = '4' ∨ c = '5' ∨ c = '6' ∨ c = '7'
    ∨ c = '8' ∨ c = '9')

/-- Numeric value of an ASCII digit, as produced by Python `int` on it. -/
def digitVal (c : Char) : Int :=
  (c.toNat : Int) - 48

theorem digitVal_bounds (c : Char) (h : isDig c = true) : 0 ≤ digitVal c ∧ digitVal c ≤ 9 := by
  have h' := of_decide_eq_true h
  rcases h' with rfl | rfl | rfl | rfl | rfl | rfl | rfl | rfl | rfl | rfl <;> exact ⟨by decide, by decide⟩

/-- Python `int` on a non-empty all-digit string: fold of the digits. -/
def digitsVal (l : List Char) : Int :=
  l.foldl (fun acc c => acc * 10 + digitVal c) 0

theorem digitsVal_aux_nonneg (l : List Char) (a : Int) (ha : 0 ≤ a)
    (h : ∀ c ∈ l, isDig c = true) : 0 ≤ l.foldl (fun acc c => acc * 10 + digitVal c) a := by
  induction l generalizing a with
  | nil => simpa using ha
  | cons c cs ih =>
    have hc : isDig c = true := h c (List.mem_cons_self ..)
    have hnn : 0 ≤ a * 10 + digitVal c := by
      have := (digitVal_bounds c hc).1
      nlinarith
    exact ih (a * 10 + digitVal c) hnn (fun d hd => h d (List.mem_cons_of_mem _ hd))

theorem digitsVal_nonneg (l : List Char) (h : ∀ c ∈ l, isDig c = true) : 0 ≤ digitsVal l :=
  digitsVal_aux_nonneg l 0 le_rfl h

/-- Separator class of the tag regexes: both `[.|_]` and `[_|.]` denote the
three characters dot, pipe and underscore. -/
def isSep (c : Char) : Bool :=
  c = '.' || c = '|' || c = '_'

/-- Longest digit prefix of a character list (the greedy `\d+`), together with
the rest. -/
def takeDigits : List Char → List Char × List Char
  | [] => ([], [])
  | c :: cs =>
    if isDig c then
      let (ds, r) := takeDigits cs
      (c :: ds, r)
    else ([], c :: cs)

theorem takeDigits_all (l : List Char) : ∀ c ∈ (takeDigits l).1, isDig c = true := by
  induction l with
  | nil => intro c hc; simp [takeDigits] at hc
  | cons a as ih =>
    intro c hc
    by_cases hd : isDig a
    · simp [takeDigits, hd] at hc
      rcases hc with rfl | hc
      · exact hd
      · exact ih c hc
    · simp [takeDigits, hd] at hc

/-- First character test (`str.startswith` with a single-character prefix). -/
def startsWithChar (s : String) (c : Char) : Bool :=
  match s.data with
  | [] => false
  | a :: _ => a == c

/-- Test for `name.endswith("main")`. -/
def endsWithMain (s : String) : Bool :=
  match s.data.reverse with
  | 'n' :: 'i' :: 'a' :: 'm' :: _ => true
  | _ => false

/-- Python `name.replace('v', '')`: removes every occurrence of the character. -/
def stripV (s : String) : String :=
  ⟨s.data.filter (fun c => c ≠ 'v')⟩

/-- ASCII lower-casing (`str.lower` on the repository names this program sees). -/
def asciiLower (s : String) : String :=
  ⟨s.data.map Char.toLower⟩

/-- ASCII upper-casing (`str.upper` as used by `ChangeLogData._ticket_number`). -/
def asciiUpper (s : String) : String :=
  ⟨s.data.map Char.toUpper⟩

/-- Code-point lexicographic comparison of character lists. -/
def charListLt : List Char → List Char → Bool
  | [], [] => false
  | [], _ :: _ => true
  | _ :: _, [] => false
  | a :: as, b :: bs =>
    if a.toNat < b.toNat then true
    else if b.toNat < a.toNat then false
    else charListLt as bs

/-- Python string comparison `<` (code-point lexicographic); on the ISO-8601
UTC date strings this program compares, it coincides with chronological
order. -/
def strLt (a b : String) : Bool :=
  charListLt a.data b.data

/-- Lookup in a Python dict modelled as an association list (first match). -/
def aget? {κ α : Type} [BEq κ] (l : List (κ × α)) (k : κ) : Option α :=
  (l.find? (fun p => p.1 == k)).map (·.2)

/-- Python `d[k] = v`: replace in place when the key is present, else append. -/
def aset {κ α : Type} [BEq κ] (l : List (κ × α)) (k : κ) (v : α) : List (κ × α) :=
  match l with
  | [] => [(k, v)]
  | (k', v') :: rest => if k' == k then (k, v) :: rest else (k', v') :: aset rest k v

/-- Key-membership test of a Python dict. -/
def amem {κ α : Type} [BEq κ] (l : List (κ × α)) (k : κ) : Bool :=
  (aget? l k).isSome

/-! ## Tag model (src/rubin_changelog/tag.py)

The `Tag` class stores a raw name, a validity bit, three kind flags and the
numeric components, all initialised to `-1`.  The static configuration lists
come from conf.py. -/

inductive ReleaseType where
  | WEEKLY
  | REGULAR
  | DAILY
  | ALL
deriving DecidableEq, Repr

/-- Static discard list, populated at import time from
`changelog_conf["discard_tag"]` in conf.py. -/
def discard_tag : List String := ["25.0.1.rc1"]

/-- Static first-tag override list, from `changelog_conf["first_tag"]` in
conf.py. -/
def first_tag : List String := ["25.0.1.rc2"]

/-- State of a constructed `Tag` object: the attributes set by
`Tag.__init__` and its `_weekly` / `_daily` / `_regular` helpers. -/
structure Tag where
  name : String
  valid : Bool
  isWeekly : Bool
  isDaily : Bool
  isMain : Bool
  major : Int
  minor : Int
  patch : Int
  rc : Int
  week : Int
  year : Int
  month : Int
  day : Int
deriving DecidableEq, Repr

/-- The freshly initialised attribute state of `Tag.__init__` before any of
the parse helpers runs. -/
def Tag.init (name : String) : Tag :=
  { name := name, valid := false, isWeekly := false, isDaily := false, isMain := false,
    major := -1, minor := -1, patch := -1, rc := -1, week := -1, year := -1, month := -1,
    day := -1 }

/-- The regex of `Tag._weekly`: `^w[.|_](\d{4})[_|.](\d{2})$`, returning
(year, week) on a match. -/
def weeklyParse (s : String) : Option (Int × Int) :=
  match s.data with
  | 'w' :: c1 :: a :: b :: c :: d :: c2 :: e :: f :: [] =>
    if isSep c1 && isSep c2 && isDig a && isDig b && isDig c && isDig d && isDig e
        && isDig f then
      some (((digitVal a * 10 + digitVal b) * 10 + digitVal c) * 10 + digitVal d,
        digitVal e * 10 + digitVal f)
    else none
  | _ => none

/-- The regex of `Tag._daily`: `^w[.|_](\d{4})[_|.](\d{2}[_|.]\d{2})$`.  Only
whether it matches is relevant: when it matches, the source would go on to run
`int` on the composite second group (`"DD<sep>DD"`) and on a third group that
does not exist, raising an uncaught exception; we prove below that the match
never succeeds on the names this helper is called with. -/
def dailyParse (s : String) : Option Unit :=
  match s.data with
  | 'w' :: c1 :: a :: b :: c :: d :: c2 :: e :: f :: c3 :: g :: h :: [] =>
    if isSep c1 && isSep c2 && isSep c3 && isDig a && isDig b && isDig c && isDig d
        && isDig e && isDig f && isDig g && isDig h then
      some ()
    else none
  | _ => none

/-- Structure of a successful match of the `Tag._regular` regex
`^[v]?(\d+)([_|.]\d+)([_|.]\d+)?([_|.]rc(\d+))?$`: the major digit group, the
minor group (separator kept, as in `match.groups()[1]`), the optional patch
group, and the digit part of the optional rc group. -/
structure RegParts where
  major : List Char
  minorSep : Char
  minorDigits : List Char
  patch : Option (Char × List Char)
  rc : Option (List Char)
deriving DecidableEq, Repr

/-- Tail parser for the `[_|.]rc(\d+)$` suffix (separator already consumed). -/
def parseRcTail (cs : List Char) : Option (List Char) :=
  match cs with
  | 'r' :: 'c' :: rest =>
    let (ds, r) := takeDigits rest
    if ds.isEmpty || !r.isEmpty then none else some ds
  | _ => none

/-- Consume the optional leading `[v]?` of the regular-tag regex. -/
def dropV (cs : List Char) : List Char :=
  match cs with
  | 'v' :: rest => rest
  | _ => cs

/-- Matcher for the `Tag._regular` regex (the match is deterministic: each
group is a maximal digit run after a mandatory separator). -/
def regularParse (s : String) : Option RegParts :=
  match takeDigits (dropV s.data) with
  | (maj, r1) =>
    if maj.isEmpty then none
    else
      match r1 with
      | [] => none
      | c1 :: r2 =>
        if !isSep c1 then none
        else
          match takeDigits r2 with
          | (mnr, r3) =>
            if mnr.isEmpty then none
            else
              match r3 with
              | [] => some ⟨maj, c1, mnr, none, none⟩
              | c2 :: r4 =>
                if !isSep c2 then none
                else
                  match takeDigits r4 with
                  | (pat, r5) =>
                    if pat.isEmpty then
                      (parseRcTail r4).map (fun ds => ⟨maj, c1, mnr, none, some ds⟩)
                    else
                      match r5 with
                      | [] => some ⟨maj, c1, mnr, some (c2, pat), none⟩
                      | c3 :: r6 =>
                        if !isSep c3 then none
                        else
                          (parseRcTail r6).map
                            (fun ds => ⟨maj, c1, mnr, some (c2, pat), some ds⟩)

/-- Value of a separator-plus-digits group after
`replace('.', '').replace('_', '')` and `int`: a `|` separator survives the
replacements and makes `int` raise the `ValueError` that `_regular` catches. -/
def sepGroupVal (sep : Char) (ds : List Char) : Option Int :=
  if sep = '|' then none else some (digitsVal ds)

/-- Value of the optional patch group: the source substitutes the string `'0'`
when the group is absent (so the conversion cannot fail there). -/
def regPatchVal : Option (Char × List Char) → Option Int
  | none => some 0
  | some (sep, ds) => sepGroupVal sep ds

/-- Value of the optional rc group: 99 when absent, else the plain digit
value (`match.groups()[4]` carries no separator, so `int` cannot fail). -/
def regRcVal : Option (List Char) → Int
  | none => 99
  | some ds => digitsVal ds

/-- The body of `Tag._regular` after a successful regex match: the assignments
run in source order inside `try`, so a `ValueError` on a later component leaves
the earlier ones assigned; the major-range check runs after the assignments. -/
def regularAssign (t : Tag) (p : Option RegParts) : Tag :=
  match p with
  | none => t
  | some parts =>
    match sepGroupVal parts.minorSep parts.minorDigits with
    | none => { t with major := digitsVal parts.major }
    | some mv =>
      match regPatchVal parts.patch with
      | none => { t with major := digitsVal parts.major, minor := mv }
      | some pv =>
        if digitsVal parts.major < 9 || digitsVal parts.major > 1000 then
          { t with major := digitsVal parts.major, minor := mv, patch := pv, rc := regRcVal parts.rc }
        else
          { t with major := digitsVal parts.major, minor := mv, patch := pv, rc := regRcVal parts.rc, valid := true }

/-- The constructor `Tag.__init__`.  The result is `none` exactly when the
constructor would raise an uncaught exception, which can only happen in the
dead daily branch (a `_daily` match would feed `int` a string with an embedded
separator and index a missing regex group). -/
def mkTag (name : String) : Option Tag :=
  let base := Tag.init name
  if endsWithMain name then some { base with valid := true, isMain := true }
  else if startsWithChar name 'w' then
    some (match weeklyParse name with
      | some (y, wk) => { base with year := y, week := wk, isWeekly := true, valid := true }
      | none => base)
  else if startsWithChar name 'd' then
    match dailyParse name with
    | some _ => none
    | none => some base
  else some (regularAssign base (regularParse name))

theorem dailyParse_requires_w (s : String) (h : startsWithChar s 'w' = false) :
    dailyParse s = none := by
  unfold dailyParse
  split
  · rename_i heq
    exfalso
    unfold startsWithChar at h
    rw [heq] at h
    simp at h
  · rfl

theorem mkTag_total (s : String) : (mkTag s).isSome = true := by
  unfold mkTag
  by_cases h1 : endsWithMain s = true
  · simp [h1]
  · by_cases h2 : startsWithChar s 'w' = true
    · simp [h1, h2]
    · by_cases h3 : startsWithChar s 'd' = true
      · have hw : startsWithChar s 'w' = false := by
          revert h2; cases startsWithChar s 'w' <;> simp
        have := dailyParse_requires_w s hw
        simp [h1, h2, h3, this]
      · simp [h1, h2, h3]

/-- Total view of the constructor, justified by `mkTag_total`. -/
def Tag.of (s : String) : Tag :=
  (mkTag s).getD (Tag.init s)

theorem mkTag_eq_of (s : String) : mkTag s = some (Tag.of s) := by
  have h := mkTag_total s
  unfold Tag.of
  cases hm : mkTag s with
  | none => rw [hm] at h; simp at h
  | some t => rfl

/-- Method `Tag.is_weekly` (the first definition at tag.py line 95). -/
def Tag.is_weekly (t : Tag) : Bool :=
  t.isMain || t.isWeekly

/-- Method `is_daily`.  In the source this is the second definition headed
`def is_weekly(self) - > bool:` (tag.py line 106); its header is corrupted,
and every caller in the module (`__hash__`, `desc`, `base_name`, `first_name`,
`matches_release`) invokes it under the name `is_daily`, so it is modelled
under that name with the body the source gives it. -/
def Tag.is_daily (t : Tag) : Bool :=
  t.isMain || t.isDaily

/-- Method `Tag.is_regular`. -/
def Tag.is_regular (t : Tag) : Bool :=
  !t.isWeekly || t.isMain

/-- Method `Tag.is_release`: final release tags carry the defaulted rc 99. -/
def Tag.is_release (t : Tag) : Bool :=
  t.rc == 99

/-- Method `Tag.is_valid`: parsed successfully and not on the static discard
list. -/
def Tag.is_valid (t : Tag) : Bool :=
  t.valid && !(discard_tag.contains t.name)

/-- Method `Tag.__hash__`: the integer ordering key. -/
def Tag.key (t : Tag) : Int :=
  if t.isMain then 9999999999
  else if t.is_weekly then t.year * 100 + t.week
  else if t.is_daily then t.year * 10000 + t.month * 10 + t.day
  else t.major * 1000000 + t.minor * 10000 + t.patch * 100 + t.rc

/-- Method `Tag.__eq__`: equality of ordering keys. -/
def Tag.beq (t u : Tag) : Bool :=
  t.key == u.key

/-- Method `Tag.__lt__` (and dually `__gt__`, `__le__`, `__ge__`): comparison
of ordering keys. -/
def Tag.ltb (t u : Tag) : Bool :=
  t.key < u.key

/-- Method `Tag.desc`: the kind string and component list. -/
def Tag.desc (t : Tag) : String × List Int :=
  if t.is_weekly then ("weekly", [t.year, t.week])
  else if t.is_daily then ("daily", [t.year, t.month, t.day])
  else if t.is_regular then ("regular", [t.major, t.minor, t.patch, t.rc])
  else ("main", [9999999999])

/-- Width-4 right-aligned decimal rendering, Python's format spec `:4`. -/
def fmtWidth4 (n : Int) : String :=
  let s := toString n
  ⟨List.replicate (4 - s.data.length) ' ' ++ s.data⟩

/-- Width-2 zero-padded decimal rendering, Python's format spec `:02`. -/
def fmtPad02 (n : Int) : String :=
  let s := toString n
  ⟨List.replicate (2 - s.data.length) '0' ++ s.data⟩

/-- Method `Tag.base_name`: the release grouping key.  Note the source tests
`is_regular` first, so main tags (for which all three predicates hold) take
the regular branch. -/
def Tag.base_name (t : Tag) : String :=
  if t.is_regular then
    toString t.major ++ "." ++ toString t.minor ++ "." ++ toString t.patch
  else if t.is_weekly then "w." ++ fmtWidth4 t.year ++ "." ++ fmtPad02 t.week
  else if t.is_daily then
    "d." ++ fmtWidth4 t.year ++ "." ++ fmtPad02 t.month ++ "." ++ fmtPad02 t.day
  else "main"

/-- Method `Tag.is_first_release_tag`: rc1 of a new series, or the static
first-tag override (when not discarded). -/
def Tag.is_first_release_tag (t : Tag) : Bool :=
  if t.is_regular then
    (t.rc == 1 && t.patch == 0)
      || (first_tag.contains t.name && !(discard_tag.contains t.name))
  else false

/-- Module function `matches_release`. -/
def matches_release (t : Tag) (r : ReleaseType) : Bool :=
  if t.is_weekly && r == ReleaseType.WEEKLY then true
  else if t.is_daily && r == ReleaseType.DAILY then true
  else if t.is_regular && r == ReleaseType.REGULAR then true
  else false

/-- Stable sorted insertion of `sortedcontainers.SortedList.add` under the
`Tag` ordering: the new element goes after every element not greater than it
(`bisect_right`). -/
def sortedInsertTag (l : List Tag) (x : Tag) : List Tag :=
  match l with
  | [] => [x]
  | a :: as => if x.key < a.key then x :: a :: as else a :: sortedInsertTag as x

/-- Module function `sort_tags` of changelog.py: sort names by tag order, then
strip `v` from final-release names. -/
def sort_tags (tags : List String) : List String :=
  let sorted := tags.foldl (fun acc n => sortedInsertTag acc (Tag.of n)) []
  sorted.map (fun t => if t.is_release then stripV t.name else t.name)

/-! ## Parse-analysis lemmas for the tag model -/

theorem weeklyParse_bounds (s : String) (y wk : Int) (h : weeklyParse s = some (y, wk)) :
    0 ≤ y ∧ y ≤ 9999 ∧ 0 ≤ wk ∧ wk ≤ 99 := by
  unfold weeklyParse at h
  split at h
  · split at h
    · rename_i hcond
      simp only [Option.some.injEq, Prod.mk.injEq] at h
      obtain ⟨hy, hwk⟩ := h
      simp only [Bool.and_eq_true] at hcond
      obtain ⟨⟨⟨⟨⟨⟨⟨hs1, hs2⟩, ha⟩, hb⟩, hc⟩, hd⟩, he⟩, hf⟩ := hcond
      rename_i c1 a b c d c2 e f _
      have Ba := digitVal_bounds a ha
      have Bb := digitVal_bounds b hb
      have Bc := digitVal_bounds c hc
      have Bd := digitVal_bounds d hd
      have Be := digitVal_bounds e he
      have Bf := digitVal_bounds f hf
      subst hy
      subst hwk
      refine ⟨by nlinarith, by nlinarith, by nlinarith, by nlinarith⟩
    · exact absurd h (by simp)
  · exact absurd h (by simp)

theorem parseRcTail_digits (cs : List Char) (ds : List Char) (h : parseRcTail cs = some ds) :
    ∀ c ∈ ds, isDig c = true := by
  unfold parseRcTail at h
  split at h
  · rename_i rest
    simp only at h
    split at h
    · exact absurd h (by simp)
    · simp only [Option.some.injEq] at h
      subst h
      exact takeDigits_all rest
  · exact absurd h (by simp)

theorem regularParse_digits (s : String) (parts : RegParts)
    (h : regularParse s = some parts) :
    (∀ c ∈ parts.minorDigits, isDig c = true)
    ∧ (∀ sep ds, parts.patch = some (sep, ds) → ∀ c ∈ ds, isDig c = true)
    ∧ (∀ ds, parts.rc = some ds → ∀ c ∈ ds, isDig c = true) := by
  rcases h0 : takeDigits (dropV s.data) with ⟨maj, r1⟩
  unfold regularParse at h
  rw [h0] at h
  simp only at h
  by_cases hm : maj.isEmpty = true
  · rw [if_pos hm] at h
    exact absurd h (by simp)
  · rw [if_neg hm] at h
    rcases r1 with _ | ⟨c1, r2⟩
    · exact absurd h (by simp)
    · simp only at h
      by_cases hs1 : (!isSep c1) = true
      · rw [if_pos hs1] at h
        exact absurd h (by simp)
      · rw [if_neg hs1] at h
        rcases h2 : takeDigits r2 with ⟨mnr, r3⟩
        rw [h2] at h
        simp only at h
        have hmnrd : ∀ c ∈ mnr, isDig c = true :=
          fun c hc => takeDigits_all r2 c (by rw [h2]; exact hc)
        by_cases hme : mnr.isEmpty = true
        · rw [if_pos hme] at h
          exact absurd h (by simp)
        · rw [if_neg hme] at h
          rcases r3 with _ | ⟨c2, r4⟩
          · simp only [Option.some.injEq] at h
            subst h
            refine ⟨hmnrd, ?_, ?_⟩
            · intro sep ds hsd
              exact absurd hsd (by simp)
            · intro ds hds
              exact absurd hds (by simp)
          · simp only at h
            by_cases hs2 : (!isSep c2) = true
            · rw [if_pos hs2] at h
              exact absurd h (by simp)
            · rw [if_neg hs2] at h
              rcases h4 : takeDigits r4 with ⟨pat, r5⟩
              rw [h4] at h
              simp only at h
              have hpatd : ∀ c ∈ pat, isDig c = true :=
                fun c hc => takeDigits_all r4 c (by rw [h4]; exact hc)
              by_cases hpe : pat.isEmpty = true
              · rw [if_pos hpe] at h
                rw [Option.map_eq_some'] at h
                obtain ⟨ds, hds, hparts⟩ := h
                subst hparts
                refine ⟨hmnrd, ?_, ?_⟩
                · intro sep ds' hsd
                  exact absurd hsd (by simp)
                · intro ds' hds'
                  simp only [Option.some.injEq] at hds'
                  subst hds'
                  exact parseRcTail_digits r4 ds hds
              · rw [if_neg hpe] at h
                rcases r5 with _ | ⟨c3, r6⟩
                · simp only [Option.some.injEq] at h
                  subst h
                  refine ⟨hmnrd, ?_, ?_⟩
                  · intro sep ds hsd
                    simp only [Option.some.injEq, Prod.mk.injEq] at hsd
                    obtain ⟨-, rfl⟩ := hsd
                    exact hpatd
                  · intro ds hds
                    exact absurd hds (by simp)
                · simp only at h
                  by_cases hs3 : (!isSep c3) = true
                  · rw [if_pos hs3] at h
                    exact absurd h (by simp)
                  · rw [if_neg hs3] at h
                    rw [Option.map_eq_some'] at h
                    obtain ⟨ds, hds, hparts⟩ := h
                    subst hparts
                    refine ⟨hmnrd, ?_, ?_⟩
                    · intro sep ds' hsd
                      simp only [Option.some.injEq, Prod.mk.injEq] at hsd
                      obtain ⟨-, rfl⟩ := hsd
                      exact hpatd
                    · intro ds' hds'
                      simp only [Option.some.injEq] at hds'
                      subst hds'
                      exact parseRcTail_digits r6 ds hds

theorem sepGroupVal_eq (sep : Char) (ds : List Char) (v : Int)
    (h : sepGroupVal sep ds = some v) : v = digitsVal ds := by
  unfold sepGroupVal at h
  split at h
  · exact absurd h (by simp)
  · simp only [Option.some.injEq] at h
    exact h.symm

theorem regularAssign_inv (t : Tag) (p : Option RegParts) :
    (regularAssign t p).name = t.name ∧ (regularAssign t p).isWeekly = t.isWeekly
    ∧ (regularAssign t p).isDaily = t.isDaily ∧ (regularAssign t p).isMain = t.isMain
    ∧ (regularAssign t p).year = t.year ∧ (regularAssign t p).week = t.week := by
  rcases p with _ | parts
  · simp [regularAssign]
  · rcases h1 : sepGroupVal parts.minorSep parts.minorDigits with _ | mv
    · simp [regularAssign, h1]
    · rcases h2 : regPatchVal parts.patch with _ | pv
      · simp [regularAssign, h1, h2]
      · by_cases h3 : (decide (digitsVal parts.major < 9)
            || decide (digitsVal parts.major > 1000)) = true
        · simp [regularAssign, h1, h2, h3]
        · simp [regularAssign, h1, h2, h3]

theorem regularAssign_valid_bounds (t : Tag) (p : Option RegParts) (h0 : t.valid = false)
    (hdig : ∀ parts, p = some parts →
      (∀ c ∈ parts.minorDigits, isDig c = true)
      ∧ (∀ sep ds, parts.patch = some (sep, ds) → ∀ c ∈ ds, isDig c = true)
      ∧ (∀ ds, parts.rc = some ds → ∀ c ∈ ds, isDig c = true))
    (h : (regularAssign t p).valid = true) :
    9 ≤ (regularAssign t p).major ∧ (regularAssign t p).major ≤ 1000
    ∧ 0 ≤ (regularAssign t p).minor ∧ 0 ≤ (regularAssign t p).patch
    ∧ 0 ≤ (regularAssign t p).rc := by
  rcases p with _ | parts
  · simp only [regularAssign] at h
    rw [h0] at h
    exact absurd h (by simp)
  · obtain ⟨hmnr, hpat, hrc⟩ := hdig parts rfl
    rcases h1 : sepGroupVal parts.minorSep parts.minorDigits with _ | mv
    · simp only [regularAssign, h1] at h
      rw [h0] at h
      exact absurd h (by simp)
    · have hmv : 0 ≤ mv := by
        rw [sepGroupVal_eq parts.minorSep parts.minorDigits mv h1]
        exact digitsVal_nonneg _ hmnr
      rcases h2 : regPatchVal parts.patch with _ | pv
      · simp only [regularAssign, h1, h2] at h
        rw [h0] at h
        exact absurd h (by simp)
      · have hpv : 0 ≤ pv := by
          unfold regPatchVal at h2
          rcases hp : parts.patch with _ | ⟨sep, ds⟩ <;> rw [hp] at h2
          · simp only [Option.some.injEq] at h2
            omega
          · rw [sepGroupVal_eq sep ds pv h2]
            exact digitsVal_nonneg _ (hpat sep ds hp)
        have hrcv : 0 ≤ regRcVal parts.rc := by
          rcases hr : parts.rc with _ | ds
          · simp [regRcVal]
          · simp only [regRcVal]
            exact digitsVal_nonneg _ (hrc ds hr)
        by_cases h3 : (decide (digitsVal parts.major < 9)
            || decide (digitsVal parts.major > 1000)) = true
        · simp only [regularAssign, h1, h2] at h
          rw [if_pos h3] at h
          rw [show ({ t with major := digitsVal parts.major, minor := mv, patch := pv, rc := regRcVal parts.rc } : Tag).valid = t.valid from rfl] at h
          rw [h0] at h
          exact absurd h (by simp)
        · have h3' := h3
          simp only [Bool.or_eq_true, decide_eq_true_eq, not_or, not_lt] at h3'
          simp only [regularAssign, h1, h2]
          rw [if_neg h3]
          exact ⟨h3'.1, h3'.2, hmv, hpv, hrcv⟩

theorem mkTag_cases (s : String) (t : Tag) (h : mkTag s = some t) :
    t = { Tag.init s with valid := true, isMain := true }
    ∨ (∃ y wk, weeklyParse s = some (y, wk)
        ∧ t = { Tag.init s with year := y, week := wk, isWeekly := true, valid := true })
    ∨ t = Tag.init s
    ∨ t = regularAssign (Tag.init s) (regularParse s) := by
  unfold mkTag at h
  simp only at h
  by_cases h1 : endsWithMain s = true
  · rw [if_pos h1] at h
    simp only [Option.some.injEq] at h
    exact Or.inl h.symm
  · rw [if_neg h1] at h
    by_cases h2 : startsWithChar s 'w' = true
    · rw [if_pos h2] at h
      rcases hw : weeklyParse s with _ | ⟨y, wk⟩ <;> rw [hw] at h
      · simp only [Option.some.injEq] at h
        exact Or.inr (Or.inr (Or.inl h.symm))
      · simp only [Option.some.injEq] at h
        exact Or.inr (Or.inl ⟨y, wk, rfl, h.symm⟩)
    · rw [if_neg h2] at h
      by_cases h3 : startsWithChar s 'd' = true
      · rw [if_pos h3] at h
        have hd : dailyParse s = none := dailyParse_requires_w s (by
          revert h2; cases startsWithChar s 'w' <;> simp)
        rw [hd] at h
        simp only [Option.some.injEq] at h
        exact Or.inr (Or.inr (Or.inl h.symm))
      · rw [if_neg h3] at h
        simp only [Option.some.injEq] at h
        exact Or.inr (Or.inr (Or.inr h.symm))

theorem Tag.of_name (s : String) : (Tag.of s).name = s := by
  rcases mkTag_cases s (Tag.of s) (mkTag_eq_of s) with h | ⟨y, wk, hw, h⟩ | h | h
  · rw [h]; rfl
  · rw [h]; rfl
  · rw [h]; rfl
  · rw [h]
    exact (regularAssign_inv (Tag.init s) (regularParse s)).1

theorem Tag.of_isDaily (s : String) : (Tag.of s).isDaily = false := by
  rcases mkTag_cases s (Tag.of s) (mkTag_eq_of s) with h | ⟨y, wk, hw, h⟩ | h | h
  · rw [h]; rfl
  · rw [h]; rfl
  · rw [h]; rfl
  · rw [h]
    exact (regularAssign_inv (Tag.init s) (regularParse s)).2.2.1

theorem Tag.of_flags_exclusive (s : String) :
    ((Tag.of s).isMain && (Tag.of s).isWeekly) = false
    ∧ ((Tag.of s).isMain && (Tag.of s).isDaily) = false
    ∧ ((Tag.of s).isWeekly && (Tag.of s).isDaily) = false := by
  have hd := Tag.of_isDaily s
  rcases mkTag_cases s (Tag.of s) (mkTag_eq_of s) with h | ⟨y, wk, hw, h⟩ | h | h
  · rw [h]
    exact ⟨rfl, rfl, rfl⟩
  · rw [h]
    exact ⟨rfl, rfl, rfl⟩
  · rw [h]
    exact ⟨rfl, rfl, rfl⟩
  · rw [h] at hd ⊢
    obtain ⟨-, hw', hd', hm', -, -⟩ := regularAssign_inv (Tag.init s) (regularParse s)
    rw [hw', hd', hm']
    exact ⟨rfl, rfl, rfl⟩

theorem Tag.of_main_shape (s : String) (h : (Tag.of s).isMain = true) :
    Tag.of s = { Tag.init s with valid := true, isMain := true } := by
  rcases mkTag_cases s (Tag.of s) (mkTag_eq_of s) with hc | ⟨y, wk, hw, hc⟩ | hc | hc
  · exact hc
  · rw [hc] at h
    exact absurd h (by simp [Tag.init])
  · rw [hc] at h
    exact absurd h (by simp [Tag.init])
  · rw [hc] at h
    obtain ⟨-, -, -, hm', -, -⟩ := regularAssign_inv (Tag.init s) (regularParse s)
    rw [hm'] at h
    exact absurd h (by simp [Tag.init])

theorem Tag.of_weekly_shape (s : String) (h : (Tag.of s).isWeekly = true) :
    ∃ y wk, weeklyParse s = some (y, wk)
      ∧ Tag.of s = { Tag.init s with year := y, week := wk, isWeekly := true, valid := true } := by
  rcases mkTag_cases s (Tag.of s) (mkTag_eq_of s) with hc | ⟨y, wk, hw, hc⟩ | hc | hc
  · rw [hc] at h
    exact absurd h (by simp [Tag.init])
  · exact ⟨y, wk, hw, hc⟩
  · rw [hc] at h
    exact absurd h (by simp [Tag.init])
  · rw [hc] at h
    obtain ⟨-, hw', -, -, -, -⟩ := regularAssign_inv (Tag.init s) (regularParse s)
    rw [hw'] at h
    exact absurd h (by simp [Tag.init])

theorem Tag.of_weekly_bounds (s : String) (h : (Tag.of s).isWeekly = true) :
    0 ≤ (Tag.of s).year ∧ (Tag.of s).year ≤ 9999 ∧ 0 ≤ (Tag.of s).week
    ∧ (Tag.of s).week ≤ 99 ∧ (Tag.of s).isMain = false ∧ (Tag.of s).valid = true := by
  obtain ⟨y, wk, hw, hc⟩ := Tag.of_weekly_shape s h
  obtain ⟨hy0, hy1, hw0, hw1⟩ := weeklyParse_bounds s y wk hw
  rw [hc]
  exact ⟨hy0, hy1, hw0, hw1, rfl, rfl⟩

theorem Tag.of_regular_bounds (s : String) (hm : (Tag.of s).isMain = false)
    (hw : (Tag.of s).isWeekly = false) (hv : (Tag.of s).valid = true) :
    9 ≤ (Tag.of s).major ∧ (Tag.of s).major ≤ 1000 ∧ 0 ≤ (Tag.of s).minor
    ∧ 0 ≤ (Tag.of s).patch ∧ 0 ≤ (Tag.of s).rc := by
  rcases mkTag_cases s (Tag.of s) (mkTag_eq_of s) with hc | ⟨y, wk, hpw, hc⟩ | hc | hc
  · rw [hc] at hm
    exact absurd hm (by simp [Tag.init])
  · rw [hc] at hw
    exact absurd hw (by simp [Tag.init])
  · rw [hc] at hv
    exact absurd hv (by simp [Tag.init])
  · rw [hc] at hv ⊢
    refine regularAssign_valid_bounds (Tag.init s) (regularParse s) rfl ?_ hv
    intro parts hp
    exact regularParse_digits s parts hp

theorem Tag.valid_of_is_valid (t : Tag) (h : t.is_valid = true) : t.valid = true := by
  unfold Tag.is_valid at h
  exact (Bool.and_eq_true ..).mp h |>.1

theorem Tag.key_of_main (s : String) (h : (Tag.of s).isMain = true) :
    (Tag.of s).key = 9999999999 := by
  unfold Tag.key
  rw [h]
  simp

theorem Tag.key_of_weekly (s : String) (h : (Tag.of s).isWeekly = true) :
    (Tag.of s).key = (Tag.of s).year * 100 + (Tag.of s).week := by
  have hm : (Tag.of s).isMain = false := (Tag.of_weekly_bounds s h).2.2.2.2.1
  unfold Tag.key Tag.is_weekly
  rw [h, hm]
  simp

theorem Tag.key_of_regular (s : String) (hm : (Tag.of s).isMain = false)
    (hw : (Tag.of s).isWeekly = false) :
    (Tag.of s).key = (Tag.of s).major * 1000000 + (Tag.of s).minor * 10000
      + (Tag.of s).patch * 100 + (Tag.of s).rc := by
  have hd : (Tag.of s).isDaily = false := Tag.of_isDaily s
  unfold Tag.key Tag.is_weekly Tag.is_daily
  rw [hm, hw, hd]
  simp

theorem Tag.key_weekly_range (s : String) (h : (Tag.of s).isWeekly = true) :
    0 ≤ (Tag.of s).key ∧ (Tag.of s).key ≤ 999999 := by
  obtain ⟨hy0, hy1, hw0, hw1, -, -⟩ := Tag.of_weekly_bounds s h
  rw [Tag.key_of_weekly s h]
  constructor <;> nlinarith

theorem Tag.key_regular_min (s : String) (hm : (Tag.of s).isMain = false)
    (hw : (Tag.of s).isWeekly = false) (hv : (Tag.of s).valid = true) :
    9000000 ≤ (Tag.of s).key := by
  obtain ⟨h1, h2, h3, h4, h5⟩ := Tag.of_regular_bounds s hm hw hv
  rw [Tag.key_of_regular s hm hw]
  nlinarith

/-! ## Claims about the tag model -/

/-- Claim C10, counterexample to the final clause: the tag "main" is a valid
`Tag`, and `matches_release` classes it under `ReleaseType.DAILY`, because the
`is_daily` method returns `_is_main or _is_daily`; so it is not true that no
valid Tag ever matches `ReleaseType.DAILY`. -/
theorem C10_daily_counterexample :
    (Tag.of "main").is_valid = true
    ∧ matches_release (Tag.of "main") ReleaseType.DAILY = true := by
  constructor
  · decide
  · decide

/-- Claim C10 (amended): the constructor only attempts daily parsing for names
starting with 'd' while the daily grammar requires the prefix 'w', so the
`_is_daily` flag is never set on any constructed Tag; consequently the only
tags matching `ReleaseType.DAILY` are main-sentinel tags (whose `is_daily`
method returns true through the `_is_main` disjunct). -/
theorem C10_no_daily_classification :
    (∀ s : String, (Tag.of s).isDaily = false)
    ∧ (∀ s : String, startsWithChar s 'd' = true → startsWithChar s 'w' = false →
        dailyParse s = none)
    ∧ (∀ s : String, matches_release (Tag.of s) ReleaseType.DAILY = true →
        (Tag.of s).isMain = true) := by
  refine ⟨Tag.of_isDaily, ?_, ?_⟩
  · intro s _ hw
    exact dailyParse_requires_w s hw
  · intro s h
    by_cases hM : (Tag.of s).isMain = true
    · exact hM
    · exfalso
      have hM' : (Tag.of s).isMain = false := by
        revert hM; cases (Tag.of s).isMain <;> simp
      have hd := Tag.of_isDaily s
      unfold matches_release Tag.is_daily Tag.is_weekly Tag.is_regular at h
      rw [hd, hM'] at h
      simp at h

/-- Witness for C10: the amended statement applied at concrete inputs. -/
theorem C10_no_daily_classification_witness :
    (Tag.of "d.2023.01.05").isDaily = false ∧ (Tag.of "main").isMain = true :=
  ⟨C10_no_daily_classification.1 "d.2023.01.05",
   C10_no_daily_classification.2.2 "main" (by decide)⟩

/-- Claim C2, counterexample: for the tag "main" all three kind-predicate
methods hold at once (`is_weekly`, `is_daily` and `is_regular` each return
true), and the valid regular tag "9.999000.9999" compares equal (by ordering
key) to the valid main tag "main" although their kinds differ. -/
theorem C2_kind_counterexample :
    ((Tag.of "main").is_weekly = true ∧ (Tag.of "main").is_daily = true
      ∧ (Tag.of "main").is_regular = true)
    ∧ ((Tag.of "9.999000.9999").is_valid = true ∧ (Tag.of "main").is_valid = true
      ∧ (Tag.of "9.999000.9999").isMain = false ∧ (Tag.of "main").isMain = true
      ∧ Tag.beq (Tag.of "9.999000.9999") (Tag.of "main") = true) := by
  constructor
  · exact ⟨by decide, by decide, by decide⟩
  · exact ⟨by decide, by decide, by decide, by decide, by decide⟩

/-- Claim C2 (amended): each raw string receives at most one of the underlying
classification flags (weekly, daily, main), so the internal classification is
exclusive; but the predicate methods all return true on main tags, and only
weekly tags are guaranteed never to compare equal to valid tags of another
kind (a valid regular tag can reach the main sentinel key). -/
theorem C2_kind_classification_amended :
    (∀ s : String, ((Tag.of s).isMain && (Tag.of s).isWeekly) = false
      ∧ ((Tag.of s).isMain && (Tag.of s).isDaily) = false
      ∧ ((Tag.of s).isWeekly && (Tag.of s).isDaily) = false)
    ∧ (∀ s : String, (Tag.of s).isMain = true →
        (Tag.of s).is_weekly = true ∧ (Tag.of s).is_daily = true
          ∧ (Tag.of s).is_regular = true)
    ∧ (∀ s u : String, (Tag.of s).isWeekly = true → (Tag.of s).is_valid = true →
        (Tag.of u).isWeekly = false → (Tag.of u).is_valid = true →
        Tag.beq (Tag.of s) (Tag.of u) = false) := by
  refine ⟨Tag.of_flags_exclusive, ?_, ?_⟩
  · intro s h
    unfold Tag.is_weekly Tag.is_daily Tag.is_regular
    rw [h]
    simp
  · intro s u hsw hsv huw huv
    have hks := Tag.key_weekly_range s hsw
    have hne : (Tag.of s).key ≠ (Tag.of u).key := by
      by_cases hum : (Tag.of u).isMain = true
      · rw [Tag.key_of_main u hum]
        omega
      · have hum' : (Tag.of u).isMain = false := by
          revert hum; cases (Tag.of u).isMain <;> simp
        have := Tag.key_regular_min u hum' huw (Tag.valid_of_is_valid _ huv)
        omega
    unfold Tag.beq
    simp only [beq_eq_false_iff_ne, ne_eq]
    exact hne

/-- Witness for C2: the amended statement applied at concrete inputs. -/
theorem C2_kind_classification_amended_witness :
    (((Tag.of "w.2023.05").isMain && (Tag.of "w.2023.05").isWeekly) = false)
    ∧ ((Tag.of "main").is_weekly = true ∧ (Tag.of "main").is_daily = true
        ∧ (Tag.of "main").is_regular = true)
    ∧ Tag.beq (Tag.of "w.2023.05") (Tag.of "23.0.0") = false :=
  ⟨(C2_kind_classification_amended.1 "w.2023.05").1,
   C2_kind_classification_amended.2.1 "main" (by decide),
   C2_kind_classification_amended.2.2 "w.2023.05" "23.0.0" (by decide) (by decide)
     (by decide) (by decide)⟩

/-- Claim C3, counterexample: "23.0.0" is the final tag of its series (rc
defaulted to 99) and "23.0.0.rc100" a numbered release candidate of the same
major.minor.patch, yet the final tag sorts strictly BEFORE the candidate,
because the rc component overflows its two-digit slot in the ordering key. -/
theorem C3_order_counterexample :
    Tag.ltb (Tag.of "23.0.0") (Tag.of "23.0.0.rc100") = true := by decide

/-- Claim C3 (amended): ordering-key comparison agrees with the chronological
or semantic component order for two valid tags of the same kind provided the
components respect their key slots: always for weekly tags (the grammar fixes
year to four digits and week to two), and for regular tags whenever minor,
patch and rc are at most 99; a final tag (rc 99) sorts after every candidate
with a smaller rc of the same major.minor.patch; in particular
v23.0.1 > v23.0.0 and w.2023.05 > w.2023.04. -/
theorem C3_same_kind_order_amended :
    (∀ s u : String, (Tag.of s).isWeekly = true → (Tag.of u).isWeekly = true →
      (Tag.ltb (Tag.of s) (Tag.of u) = true ↔
        ((Tag.of s).year < (Tag.of u).year
          ∨ ((Tag.of s).year = (Tag.of u).year ∧ (Tag.of s).week < (Tag.of u).week))))
    ∧ (∀ s u : String,
        (Tag.of s).isMain = false → (Tag.of s).isWeekly = false → (Tag.of s).is_valid = true →
        (Tag.of u).isMain = false → (Tag.of u).isWeekly = false → (Tag.of u).is_valid = true →
        (Tag.of s).minor ≤ 99 → (Tag.of s).patch ≤ 99 → (Tag.of s).rc ≤ 99 →
        (Tag.of u).minor ≤ 99 → (Tag.of u).patch ≤ 99 → (Tag.of u).rc ≤ 99 →
        (Tag.ltb (Tag.of s) (Tag.of u) = true ↔
          ((Tag.of s).major < (Tag.of u).major
            ∨ ((Tag.of s).major = (Tag.of u).major ∧ ((Tag.of s).minor < (Tag.of u).minor
              ∨ ((Tag.of s).minor = (Tag.of u).minor ∧ ((Tag.of s).patch < (Tag.of u).patch
                ∨ ((Tag.of s).patch = (Tag.of u).patch
                    ∧ (Tag.of s).rc < (Tag.of u).rc))))))))
    ∧ (∀ s u : String,
        (Tag.of s).isMain = false → (Tag.of s).isWeekly = false →
        (Tag.of u).isMain = false → (Tag.of u).isWeekly = false →
        (Tag.of s).major = (Tag.of u).major → (Tag.of s).minor = (Tag.of u).minor →
        (Tag.of s).patch = (Tag.of u).patch → (Tag.of s).rc < (Tag.of u).rc →
        Tag.ltb (Tag.of s) (Tag.of u) = true)
    ∧ Tag.ltb (Tag.of "v23.0.0") (Tag.of "v23.0.1") = true
    ∧ Tag.ltb (Tag.of "w.2023.04") (Tag.of "w.2023.05") = true := by
  refine ⟨?_, ?_, ?_, by decide, by decide⟩
  · intro s u hs hu
    obtain ⟨hys0, hys1, hws0, hws1, -, -⟩ := Tag.of_weekly_bounds s hs
    obtain ⟨hyu0, hyu1, hwu0, hwu1, -, -⟩ := Tag.of_weekly_bounds u hu
    rw [Tag.ltb, Tag.key_of_weekly s hs, Tag.key_of_weekly u hu]
    simp only [decide_eq_true_eq]
    omega
  · intro s u hms hws hvs hmu hwu hvu hs1 hs2 hs3 hu1 hu2 hu3
    obtain ⟨hMs0, hMs1, hns0, hps0, hrs0⟩ :=
      Tag.of_regular_bounds s hms hws (Tag.valid_of_is_valid _ hvs)
    obtain ⟨hMu0, hMu1, hnu0, hpu0, hru0⟩ :=
      Tag.of_regular_bounds u hmu hwu (Tag.valid_of_is_valid _ hvu)
    rw [Tag.ltb, Tag.key_of_regular s hms hws, Tag.key_of_regular u hmu hwu]
    simp only [decide_eq_true_eq]
    constructor
    · intro h
      by_cases hM : (Tag.of s).major < (Tag.of u).major
      · exact Or.inl hM
      · right
        constructor
        · omega
        · by_cases hN : (Tag.of s).minor < (Tag.of u).minor
          · exact Or.inl hN
          · right
            constructor
            · omega
            · by_cases hP : (Tag.of s).patch < (Tag.of u).patch
              · exact Or.inl hP
              · right
                constructor
                · omega
                · omega
    · intro h
      rcases h with h | ⟨hM, h⟩
      · nlinarith
      · rcases h with h | ⟨hN, h⟩
        · nlinarith
        · rcases h with h | ⟨hP, h⟩
          · nlinarith
          · nlinarith
  · intro s u hms hws hmu hwu hM hN hP hR
    rw [Tag.ltb, Tag.key_of_regular s hms hws, Tag.key_of_regular u hmu hwu, hM, hN, hP]
    simp only [decide_eq_true_eq]
    omega

/-- Witness for C3: the amended statement applied at concrete inputs. -/
theorem C3_same_kind_order_amended_witness :
    (Tag.ltb (Tag.of "w.2023.04") (Tag.of "w.2023.05") = true ↔
      ((Tag.of "w.2023.04").year < (Tag.of "w.2023.05").year
        ∨ ((Tag.of "w.2023.04").year = (Tag.of "w.2023.05").year
          ∧ (Tag.of "w.2023.04").week < (Tag.of "w.2023.05").week)))
    ∧ Tag.ltb (Tag.of "23.0.0.rc2") (Tag.of "23.0.0") = true :=
  ⟨C3_same_kind_order_amended.1 "w.2023.04" "w.2023.05" (by decide) (by decide),
   C3_same_kind_order_amended.2.2.1 "23.0.0.rc2" "23.0.0" (by decide) (by decide)
     (by decide) (by decide) (by decide) (by decide) (by decide) (by decide)⟩

/-- Claim C8: `base_name` is rc-invariant.  Two tags classified regular with
the same numeric major, minor and patch have the same `base_name` whatever
their rc component, and concretely the names "23.0.1.rc1", "23.0.1.rc2" and
"23.0.1" all share the base name "23.0.1". -/
theorem C8_base_name_rc_invariant :
    (∀ s u : String, (Tag.of s).is_regular = true → (Tag.of u).is_regular = true →
      (Tag.of s).major = (Tag.of u).major → (Tag.of s).minor = (Tag.of u).minor →
      (Tag.of s).patch = (Tag.of u).patch →
      (Tag.of s).base_name = (Tag.of u).base_name)
    ∧ (Tag.of "23.0.1.rc1").base_name = "23.0.1"
    ∧ (Tag.of "23.0.1.rc2").base_name = "23.0.1"
    ∧ (Tag.of "23.0.1").base_name = "23.0.1" := by
  refine ⟨?_, by decide, by decide, by decide⟩
  intro s u hrs hru hM hN hP
  unfold Tag.base_name
  rw [if_pos hrs, if_pos hru, hM, hN, hP]

/-- Witness for C8: the general rc-invariance applied to "23.0.1.rc1" and
"23.0.1", together with the evaluated base names. -/
theorem C8_base_name_rc_invariant_witness :
    (Tag.of "23.0.1.rc1").base_name = (Tag.of "23.0.1").base_name :=
  C8_base_name_rc_invariant.1 "23.0.1.rc1" "23.0.1" (by decide) (by decide) (by decide)
    (by decide) (by decide)

/-! ## Changelog data model (src/rubin_changelog/changelog.py)

Inputs as assembled by `GitHubData.get_pull_requests` / `get_tags` and
`get_repo_yaml`, in the shapes `ChangeLogData` consumes.  Dates are ISO-8601
UTC strings; a `SortedDict` keyed by date is a list sorted ascending by key and
iteration follows list order. -/

/-- A pull-request record `pull_requests[branch][committedDate]`: the tuple
(mergedBranch, oid, url, title) built by `get_pull_requests` (the head ref has
already had a leading `tickets/` segment split off there). -/
structure PullItem where
  ref : String
  oid : Option String
  url : String
  title : String
deriving DecidableEq, Repr

/-- The commit a tag ultimately points at: `target['target']` with its
optional `oid` key and its `committedDate`. -/
structure CommitInfo where
  oid : Option String
  committedDate : String
deriving DecidableEq, Repr

/-- A tag node `t['target']`: optional `tagger.date`, and the inner `target`
key, which may be absent (`none`), present but null (`some none`), or a
commit (`some (some c)`). -/
structure TagTargetDict where
  tagger : Option String
  inner : Option (Option CommitInfo)
deriving DecidableEq, Repr

/-- One element of a repository's tag list. -/
structure TagEntry where
  name : String
  target : TagTargetDict
deriving DecidableEq, Repr

/-- One entry of the repos.yaml map: `(org, repo, ref, lfs)` tuples, of which
the code reads indices 0, 1 and 2. -/
structure RepoInfo where
  org : String
  repo : String
  ref : String
deriving DecidableEq, Repr

/-- Key of a ticket row in `results[current]`: `valid_ticket` produces the
digit string of the ticket ref, `_ticket_number` a Python int, and the two key
kinds do not collide in a Python dict. -/
inductive TicketKey where
  | str (s : String)
  | int (n : Int)
deriving DecidableEq, Repr

/-- Python f-string `f'DM-{ticket_nr}'` over an optional ticket key. -/
def dmKey : Option TicketKey → String
  | none => "DM-None"
  | some (TicketKey.str s) => "DM-" ++ s
  | some (TicketKey.int n) => "DM-" ++ toString n

/-- A ticket row `results[current][ticket][branch]`: the four-element list
[jira title, SortedList of (package, url), last merge date, epoch]. -/
structure Row where
  title : Option String
  pkgs : List (String × String)
  lastMerge : String
  slot3 : String
deriving DecidableEq, Repr

/-- Ticket table of one release: `results[current]`. -/
abbrev BranchTable := List (String × Row)

abbrev TicketTable := List (TicketKey × BranchTable)

/-- The full `results` mapping of `ChangeLogData.process`. -/
abbrev Results := List (String × TicketTable)

instance : DecidableEq BranchTable := fun a b => instDecidableEqList a b

instance : DecidableEq TicketTable := fun a b => instDecidableEqList a b

instance : DecidableEq Results := fun a b => instDecidableEqList a b

/-- The merge item `(ticket, tags, url, title)` stored by `_process_tags`
into `result[branch][date]`. -/
structure MergeItem where
  ticket : String
  tags : Option (List String × String)
  url : String
  title : String
deriving DecidableEq, Repr

/-- The fetched snapshot handed to `ChangeLogData`: the `tags`, `pulls`,
`repos` and `repo_map` members of the github data dict. -/
structure GHData where
  tags : List (String × List TagEntry)
  pulls : List (String × List (String × List (String × PullItem)))
  repos : List (String × RepoInfo)
  repoMap : List (String × String)
deriving Repr

/-- Module function `valid_ticket`: `re.search(r'.*DM-(\d+).*', name)`.  The
greedy leading `.*` makes the regex bind the LAST occurrence of `DM-` that is
followed by at least one digit; the group is the maximal digit run there. -/
def dmrefAt : List Char → Option (List Char)
  | 'D' :: 'M' :: '-' :: rest =>
    match takeDigits rest with
    | (ds, _) => if ds.isEmpty then none else some ds
  | _ => none

/-- Scan preferring the rightmost `DM-<digits>` occurrence. -/
def lastDM : List Char → Option (List Char)
  | [] => none
  | c :: cs =>
    match lastDM cs with
    | some r => some r
    | none => dmrefAt (c :: cs)

def valid_ticket (name : String) : Option String :=
  (lastDM name.data).map (fun ds => ⟨ds⟩)

/-- Character class `[\s*|-]` of `_ticket_number` (ASCII whitespace). -/
def isTicketSep (c : Char) : Bool :=
  c = ' ' || c = '\t' || c = '\n' || c = '\r' || c = '\x0b' || c = '\x0c'
    || c = '*' || c = '|' || c = '-'

def dmNumAt : List Char → Option (List Char)
  | 'D' :: 'M' :: c :: rest =>
    if isTicketSep c then
      match takeDigits rest with
      | (ds, _) => if ds.isEmpty then none else some ds
    else none
  | _ => none

/-- Scan preferring the leftmost `DM<sep><digits>` occurrence (plain
`re.search` semantics). -/
def firstDM : List Char → Option (List Char)
  | [] => none
  | c :: cs =>
    match dmNumAt (c :: cs) with
    | some r => some r
    | none => firstDM cs

/-- Static method `ChangeLogData._ticket_number`: first `DM[\s*|-](\d+)`
match in the upper-cased title, converted to int. -/
def ticket_number (title : String) : Option Int :=
  (firstDM (asciiUpper title).data).map digitsVal

/-- Static method `ChangeLogData.valid_branch`: exact match against the
default branch, or an (unanchored) occurrence of `v?\d+\.\d+\.x`. -/
def branchPatAt : List Char → Bool
  | cs =>
    match takeDigits (dropV cs) with
    | (d1, r1) =>
      if d1.isEmpty then false
      else
        match r1 with
        | '.' :: r2 =>
          match takeDigits r2 with
          | (d2, r3) =>
            if d2.isEmpty then false
            else
              match r3 with
              | '.' :: 'x' :: _ => true
              | _ => false
        | _ => false

def branchPatSearch : List Char → Bool
  | [] => false
  | c :: cs => branchPatAt (c :: cs) || branchPatSearch cs

def valid_branch (name branch : String) : Bool :=
  if name == branch then true else branchPatSearch name.data

/-- Insertion into a `SortedDict` keyed by date strings: replace an existing
key in place, otherwise insert at the sorted position. -/
def sdset {α : Type} (l : List (String × α)) (k : String) (v : α) : List (String × α) :=
  match l with
  | [] => [(k, v)]
  | (k', v') :: rest =>
    if k == k' then (k, v) :: rest
    else if strLt k k' then (k, v) :: (k', v') :: rest
    else (k', v') :: sdset rest k v

/-- Strict lexicographic order on (package, url) pairs (Python tuple order). -/
def pairLt (a b : String × String) : Bool :=
  strLt a.1 b.1 || (a.1 == b.1 && strLt a.2 b.2)

/-- `SortedList.add` on (package, url) pairs (`bisect_right`: a new element
goes after every element not greater than it). -/
def sortedAddPair (l : List (String × String)) (x : String × String) :
    List (String × String) :=
  match l with
  | [] => [x]
  | a :: as => if pairLt x a then x :: a :: as else a :: sortedAddPair as x

/-- First phase of `ChangeLogData._process_tags` (the loop over `tag_list`):
builds `tag_dict` (commit oid to tag names and commit date) and `tag_dates`
(tag name to optional tagger date). -/
def processTagsPhase1 (tagList : List TagEntry) (release : ReleaseType) :
    (List (String × (List String × String))) × (List (String × Option String)) :=
  tagList.foldl
    (fun acc t =>
      match acc with
      | (tag_dict, tag_dates) =>
        match t.target.inner with
        | none => (tag_dict, tag_dates)
        | some innerVal =>
          let name0 := t.name
          let rtag := Tag.of name0
          let name := if rtag.is_regular && startsWithChar name0 'v'
            then stripV name0 else name0
          let tagDate := t.target.tagger
          let rel_tag := Tag.of name
          if !rel_tag.is_valid then (tag_dict, tag_dates)
          else if !matches_release rel_tag release then (tag_dict, tag_dates)
          else
            match innerVal with
            | none => (tag_dict, tag_dates)
            | some ci =>
              match ci.oid with
              | none => (tag_dict, tag_dates)
              | some oid =>
                let tag_dates' := if amem tag_dates name then tag_dates
                  else tag_dates ++ [(name, tagDate)]
                let tag_dict' := match aget? tag_dict oid with
                  | none => tag_dict ++ [(oid, ([name], ci.committedDate))]
                  | some (names, cd) => aset tag_dict oid (names ++ [name], cd)
                (tag_dict', tag_dates'))
    ([], [])

/-- Second phase of `_process_tags` (the loop over `pull_list`): groups merge
records by branch into date-sorted dicts, resolving each merge commit oid
against `tag_dict` (whose name lists are sorted in place as they are first
touched).  `branchRef?` is `self.repos[self.repo_map[pkg]][2]`; its absence is
a KeyError, raised on the first loop iteration. -/
def processTagsPhase2 (branchRef? : Option String)
    (tag_dict0 : List (String × (List String × String)))
    (pull_list : List (String × List (String × PullItem))) :
    Option (List (String × List (String × MergeItem))) :=
  let run : Option ((List (String × (List String × String)))
      × List (String × List (String × MergeItem))) :=
    pull_list.foldlM
    (fun (st : (List (String × (List String × String)))
        × List (String × List (String × MergeItem)))
      (bp : String × List (String × PullItem)) => do
      match st, bp with
      | (tag_dict, result), (name, pull_branch) =>
        let branch ← branchRef?
        if !valid_branch name branch then pure (tag_dict, result)
        else
          let result := if amem result name then result else result ++ [(name, [])]
          let inner0 := (aget? result name).getD []
          let out := pull_branch.foldl
            (fun (st2 : (List (String × (List String × String)))
                × List (String × MergeItem))
              (dp : String × PullItem) =>
              match st2, dp with
              | (td, inner), (date, pb) =>
                match pb.oid with
                | some oid =>
                  match aget? td oid with
                  | some (names, cd) =>
                    let ns := sort_tags names
                    (aset td oid (ns, cd),
                      sdset inner date ⟨pb.ref, some (ns, cd), pb.url, pb.title⟩)
                  | none => (td, sdset inner date ⟨pb.ref, none, pb.url, pb.title⟩)
                | none => (td, sdset inner date ⟨pb.ref, none, pb.url, pb.title⟩))
            (tag_dict, inner0)
          pure (out.1, aset result name out.2))
    (tag_dict0, ([] : List (String × List (String × MergeItem))))
  run.map (·.2)

/-- `ChangeLogData._process_tags`: both phases. -/
def process_tags (branchRef? : Option String) (tagList : List TagEntry)
    (pull_list : List (String × List (String × PullItem))) (release : ReleaseType) :
    Option ((List (String × List (String × MergeItem)))
      × List (String × Option String)) :=
  match processTagsPhase1 tagList release with
  | (tag_dict, tag_dates) =>
    (processTagsPhase2 branchRef? tag_dict pull_list).map (fun r => (r, tag_dates))

/-- Ticket-number resolution of `ChangeLogData.process` (changelog.py lines
175-179): the head-branch/ticket-ref is parsed first; the PR title is used
only when the ref yields nothing. -/
def resolveTicket (ref title : String) : Option TicketKey :=
  let ticket_nr := (valid_ticket ref).map TicketKey.str
  let title_ticket_nr := (ticket_number title).map TicketKey.int
  if ticket_nr.isNone && title_ticket_nr.isSome then title_ticket_nr else ticket_nr

/-- The three row mutations of one loop iteration: `row[0] = ticket_title`,
`row[1].add((pkg, url))`, `row[2] = max(row[2], merge_date)` (the latter via
the guarded assignment of the source). -/
def rowUpdate (jt : Option String) (pkg url merge_date : String) (row : Row) : Row :=
  { row with title := jt, pkgs := sortedAddPair row.pkgs (pkg, url), lastMerge := if strLt row.lastMerge merge_date then merge_date else row.lastMerge }

/-- Per-branch loop context of `ChangeLogData.process`. -/
structure LoopCtx where
  pkg : String
  branch : String
  releaseType : ReleaseType
  jira : List (String × String)
  repos : List (String × RepoInfo)
  dates : List (String × Option String)
  last_weekly : String

/-- Fresh row initialiser `[None, SortedList(), "1970-01-01T00:00Z",
"1970-01-01T00:00Z"]` of the results branch. -/
def R0 : Row :=
  ⟨none, [], "1970-01-01T00:00Z", "1970-01-01T00:00Z"⟩

/-- Fresh row initialiser of the `main` branch of the loop, whose fourth
element carries a trailing space in the source. -/
def R0main : Row :=
  ⟨none, [], "1970-01-01T00:00Z", "1970-01-01T00:00Z "⟩

/-- The record block of the merge loop (changelog.py lines 194-202 and
217-225): create the ticket and branch entries if missing, then apply the
three row mutations. -/
def recordRow (jt : Option String) (pkg url merge_date branch : String)
    (tk : TicketKey) (init : Row) (tbl : TicketTable) : TicketTable :=
  match aget? tbl tk with
  | none =>
    aset tbl tk (aset ([] : BranchTable) branch (rowUpdate jt pkg url merge_date init))
  | some btbl =>
    match aget? btbl branch with
    | none => aset tbl tk (aset btbl branch (rowUpdate jt pkg url merge_date init))
    | some row => aset tbl tk (aset btbl branch (rowUpdate jt pkg url merge_date row))

/-- Body of the merge loop of `ChangeLogData.process` (changelog.py lines
173-225), for one merge record, threading (results, main, current).  The
result is `none` only where Python would raise: indexing `tags[0][0]` of an
empty name list, which `_process_tags` never produces (it seeds every
`tag_dict` entry with a one-element list).  The unguarded `results[current]`
subscript of the source is modelled with a default because the key is always
present: `'~untagged'` is seeded, and any other value of `current` was just
inserted by the `first_tag` branch. -/
def loopBody (ctx : LoopCtx) (st : Results × TicketTable × String)
    (dm : String × MergeItem) : Option (Results × TicketTable × String) :=
  match st, dm with
  | (results, main, current), (merge_date, item) =>
    let ticket_nr := resolveTicket item.ticket item.title
    let ticket_title := aget? ctx.jira (dmKey ticket_nr)
    match item.tags with
    | some ([], _) => none
    | _ =>
      let first_tag : Option String := match item.tags with
        | some (n :: _, _) => some n
        | _ => none
      let resultsCur : Results × String := match first_tag with
        | some ft => (if amem results ft then results else results ++ [(ft, [])], ft)
        | none => (results, current)
      match resultsCur with
      | (results, current) =>
        match ticket_nr with
        | none => some (results, main, current)
        | some tk =>
          let tbl : TicketTable := (aget? results current).getD []
          let results := aset results current
            (recordRow ticket_title ctx.pkg item.url merge_date ctx.branch tk R0 tbl)
          let main_name := match aget? ctx.repos (asciiLower ctx.pkg) with
            | some ri => ri.ref
            | none => "main"
          if !(ctx.branch == main_name && current == "~untagged"
              && ctx.releaseType == ReleaseType.WEEKLY) then
            some (results, main, current)
          else
            match (aget? ctx.dates ctx.last_weekly).bind id with
            | none => some (results, main, current)
            | some weekly_date =>
              if strLt merge_date weekly_date then some (results, main, current)
              else
                let main := recordRow ticket_title ctx.pkg item.url merge_date
                  ctx.branch tk R0main main
                some (results, main, current)

/-- One branch of the merge loop: `current` resets to `'~untagged'` and the
branch's merge dict is walked in reverse (newest date first). -/
def branchWalk (ctx : LoopCtx) (st : Results × TicketTable)
    (merge : List (String × MergeItem)) : Option (Results × TicketTable × String) :=
  merge.reverse.foldlM (loopBody ctx) (st.1, st.2, "~untagged")

/-- The `tag_dates` accumulation of `ChangeLogData.process` (lines 164-169):
keep the maximum parsed date per release name, storing the (datetime,
formatted) pair — identical strings under the date model. -/
def tagDatesUpd (td : List (String × (String × String))) (rel : String)
    (date : String) : List (String × (String × String)) :=
  match aget? td rel with
  | none => aset td rel (date, date)
  | some (d0, _) => if strLt d0 date then aset td rel (date, date) else td

/-- The per-package fold of `ChangeLogData.process` (lines 161-225), which
never consults the clock.  The result is `none` when the source would raise:
a package missing from `pulls` or from the repos maps (KeyError), or a tag
date of `None` handed to `dateutil.parser.parse` (TypeError). -/
def processCore (gh : GHData) (jira : List (String × String))
    (last_weekly : String) (releaseType : ReleaseType) :
    Option (Results × TicketTable × List (String × (String × String))) :=
  gh.tags.foldlM
    (fun (st : Results × TicketTable × List (String × (String × String)))
      (pkgTag : String × List TagEntry) => do
      match st, pkgTag with
      | (results, main, tag_dates), (pkg, tagList) =>
        let pull ← aget? gh.pulls pkg
        let branchRef? : Option String := do
          let prod ← aget? gh.repoMap pkg
          let ri ← aget? gh.repos prod
          pure ri.ref
        let md ← process_tags branchRef? tagList pull releaseType
        match md with
        | (merges, dates) =>
          let tag_dates ← dates.foldlM
            (fun td rd => do
              let dstr ← rd.2
              pure (tagDatesUpd td rd.1 dstr))
            tag_dates
          let rm ← merges.foldlM
            (fun (rm : Results × TicketTable)
              (bm : String × List (String × MergeItem)) => do
              let ctx : LoopCtx :=
                ⟨pkg, bm.1, releaseType, jira, gh.repos, dates, last_weekly⟩
              let out ← branchWalk ctx rm bm.2
              pure (out.1, out.2.1))
            (results, main)
          pure (rm.1, rm.2, tag_dates))
    (([("~untagged", [])] : Results), ([] : TicketTable),
      ([] : List (String × (String × String))))

/-- `ChangeLogData.process` assembled from the clock-free package fold and the
final `~main` stamping; `now` is the value of `datetime.utcnow()` at the end
of the run, and `package_diff` is accepted and ignored exactly as in the
source. -/
def process (now : String) (gh : GHData) (jira : List (String × String))
    (last_weekly : String) (releaseType : ReleaseType)
    (package_diff : List (String × (List String × List String))) :
    Option (Results × List (String × (String × String))) := do
  let _ := package_diff
  let st ← processCore gh jira last_weekly releaseType
  match st with
  | (results, main, tag_dates) =>
    if releaseType == ReleaseType.WEEKLY && !main.isEmpty then
      pure (aset results "~main" main, aset tag_dates "~main" (now, now))
    else
      pure (results, tag_dates)

/-- All (package, url) contributor pairs recorded in a branch table. -/
def rowUrls (b : BranchTable) : List (String × String) :=
  b.foldl (fun acc p => acc ++ p.2.pkgs) []

/-- All (package, url) contributor pairs recorded in a ticket table. -/
def ticketUrls (t : TicketTable) : List (String × String) :=
  t.foldl (fun acc p => acc ++ rowUrls p.2) []

/-- All (package, url) pairs recorded under one release of a results map. -/
def urlsUnder (r : Results) (rel : String) : List (String × String) :=
  ticketUrls ((aget? r rel).getD [])

/-! ## Membership lemmas for the accumulator structures -/

theorem mem_sortedAddPair (l : List (String × String)) (y x : String × String) :
    x ∈ sortedAddPair l y ↔ x ∈ l ∨ x = y := by
  induction l with
  | nil => simp [sortedAddPair]
  | cons a as ih =>
    unfold sortedAddPair
    by_cases h : pairLt y a = true
    · simp [h]
      tauto
    · simp [h, ih]
      tauto

theorem aget?_aset_self {κ α : Type} [BEq κ] [LawfulBEq κ] (l : List (κ × α)) (k : κ) (v : α) :
    aget? (aset l k v) k = some v := by
  induction l with
  | nil => simp [aset, aget?]
  | cons a as ih =>
    unfold aset
    rcases a with ⟨k', v'⟩
    by_cases h : (k' == k) = true
    · rw [if_pos h]
      simp [aget?]
    · rw [if_neg h]
      unfold aget? at ih ⊢
      simp only [List.find?]
      simp only [Bool.not_eq_true] at h
      rw [h]
      exact ih

theorem aget?_aset_ne {κ α : Type} [BEq κ] [LawfulBEq κ] (l : List (κ × α)) (k k' : κ) (v : α)
    (h : k ≠ k') : aget? (aset l k v) k' = aget? l k' := by
  induction l with
  | nil =>
    simp [aset, aget?]
    intro hkk
    exact absurd hkk h
  | cons a as ih =>
    unfold aset
    rcases a with ⟨k0, v0⟩
    by_cases h0 : (k0 == k) = true
    · rw [if_pos h0]
      unfold aget?
      simp only [List.find?]
      have hk0 : k0 = k := by simpa using h0
      subst hk0
      have h1 : (k0 == k') = false := by
        simp only [beq_eq_false_iff_ne, ne_eq]
        exact h
      rw [h1]
    · rw [if_neg h0]
      unfold aget? at ih ⊢
      simp only [List.find?]
      rcases hk : (k0 == k') with _ | _
      · exact ih
      · rfl

theorem amem_eq_false_iff {κ α : Type} [BEq κ] (l : List (κ × α)) (k : κ) :
    amem l k = false ↔ aget? l k = none := by
  unfold amem
  cases aget? l k <;> simp

theorem aget?_append_new {κ α : Type} [BEq κ] [LawfulBEq κ] (l : List (κ × α)) (k : κ) (v : α)
    (h : aget? l k = none) : aget? (l ++ [(k, v)]) k = some v := by
  induction l with
  | nil => simp [aget?, List.find?]
  | cons a as ih =>
    unfold aget? at h ih ⊢
    simp only [List.cons_append, List.find?] at h ⊢
    by_cases hk : (a.1 == k) = true
    · rw [hk] at h
      simp at h
    · have hk' : (a.1 == k) = false := by simpa using hk
      rw [hk'] at h ⊢
      exact ih h

theorem aget?_append_ne {κ α : Type} [BEq κ] (l : List (κ × α)) (k k' : κ) (v : α)
    (h : (k == k') = false) : aget? (l ++ [(k, v)]) k' = aget? l k' := by
  induction l with
  | nil => simp [aget?, List.find?, h]
  | cons a as ih =>
    unfold aget? at ih ⊢
    simp only [List.cons_append, List.find?]
    by_cases hk : (a.1 == k') = true
    · rw [hk]
    · have hk' : (a.1 == k') = false := by simpa using hk
      rw [hk']
      exact ih

theorem mem_rowUrls_aux (b : BranchTable) (init : List (String × String))
    (x : String × String) :
    x ∈ b.foldl (fun acc p => acc ++ p.2.pkgs) init ↔ x ∈ init ∨ ∃ p ∈ b, x ∈ p.2.pkgs := by
  induction b generalizing init with
  | nil => simp
  | cons a rest ih =>
    simp only [List.foldl_cons, ih, List.mem_append, List.mem_cons]
    constructor
    · rintro ((h | h) | ⟨p, hp, hx⟩)
      · exact Or.inl h
      · exact Or.inr ⟨a, Or.inl rfl, h⟩
      · exact Or.inr ⟨p, Or.inr hp, hx⟩
    · rintro (h | ⟨p, (rfl | hp), hx⟩)
      · exact Or.inl (Or.inl h)
      · exact Or.inl (Or.inr hx)
      · exact Or.inr ⟨p, hp, hx⟩

theorem mem_rowUrls (b : BranchTable) (x : String × String) :
    x ∈ rowUrls b ↔ ∃ p ∈ b, x ∈ p.2.pkgs := by
  unfold rowUrls
  rw [mem_rowUrls_aux]
  simp

theorem mem_rowUrls_cons (k : String) (r : Row) (b : BranchTable) (x : String × String) :
    x ∈ rowUrls ((k, r) :: b) ↔ x ∈ r.pkgs ∨ x ∈ rowUrls b := by
  rw [mem_rowUrls, mem_rowUrls]
  simp only [List.mem_cons]
  constructor
  · rintro ⟨p, (rfl | hp), hx⟩
    · exact Or.inl hx
    · exact Or.inr ⟨p, hp, hx⟩
  · rintro (h | ⟨p, hp, hx⟩)
    · exact ⟨(k, r), Or.inl rfl, h⟩
    · exact ⟨p, Or.inr hp, hx⟩

theorem mem_ticketUrls_aux (t : TicketTable) (init : List (String × String))
    (x : String × String) :
    x ∈ t.foldl (fun acc p => acc ++ rowUrls p.2) init
      ↔ x ∈ init ∨ ∃ p ∈ t, x ∈ rowUrls p.2 := by
  induction t generalizing init with
  | nil => simp
  | cons a rest ih =>
    simp only [List.foldl_cons, ih, List.mem_append, List.mem_cons]
    constructor
    · rintro ((h | h) | ⟨p, hp, hx⟩)
      · exact Or.inl h
      · exact Or.inr ⟨a, Or.inl rfl, h⟩
      · exact Or.inr ⟨p, Or.inr hp, hx⟩
    · rintro (h | ⟨p, (rfl | hp), hx⟩)
      · exact Or.inl (Or.inl h)
      · exact Or.inl (Or.inr hx)
      · exact Or.inr ⟨p, hp, hx⟩

theorem mem_ticketUrls (t : TicketTable) (x : String × String) :
    x ∈ ticketUrls t ↔ ∃ p ∈ t, x ∈ rowUrls p.2 := by
  unfold ticketUrls
  rw [mem_ticketUrls_aux]
  simp

theorem mem_ticketUrls_cons (k : TicketKey) (b : BranchTable) (t : TicketTable)
    (x : String × String) :
    x ∈ ticketUrls ((k, b) :: t) ↔ x ∈ rowUrls b ∨ x ∈ ticketUrls t := by
  rw [mem_ticketUrls, mem_ticketUrls]
  simp only [List.mem_cons]
  constructor
  · rintro ⟨p, (rfl | hp), hx⟩
    · exact Or.inl hx
    · exact Or.inr ⟨p, hp, hx⟩
  · rintro (h | ⟨p, hp, hx⟩)
    · exact ⟨(k, b), Or.inl rfl, h⟩
    · exact ⟨p, Or.inr hp, hx⟩

theorem mem_rowUrls_aset (b : BranchTable) (br : String) (r' : Row) (x : String × String)
    (hgrow : ∀ row, aget? b br = some row → ∀ y ∈ row.pkgs, y ∈ r'.pkgs) :
    x ∈ rowUrls (aset b br r') ↔ x ∈ rowUrls b ∨ x ∈ r'.pkgs := by
  induction b with
  | nil =>
    unfold aset
    rw [mem_rowUrls_cons, mem_rowUrls]
    simp
  | cons a rest ih =>
    rcases a with ⟨k0, row0⟩
    unfold aset
    by_cases hk : (k0 == br) = true
    · rw [if_pos hk]
      have hrow : aget? ((k0, row0) :: rest) br = some row0 := by
        unfold aget?
        simp [List.find?, hk]
      have hsub := hgrow row0 hrow
      rw [mem_rowUrls_cons, mem_rowUrls_cons]
      constructor
      · rintro (h | h)
        · exact Or.inr h
        · exact Or.inl (Or.inr h)
      · rintro ((h | h) | h)
        · exact Or.inl (hsub x h)
        · exact Or.inr h
        · exact Or.inl h
    · rw [if_neg hk]
      have hk' : (k0 == br) = false := by simpa using hk
      have hrest : ∀ row, aget? rest br = some row → ∀ y ∈ row.pkgs, y ∈ r'.pkgs := by
        intro row hrow
        refine hgrow row ?_
        unfold aget? at hrow ⊢
        simp only [List.find?]
        rw [hk']
        exact hrow
      rw [mem_rowUrls_cons, mem_rowUrls_cons, ih hrest]
      tauto

theorem mem_ticketUrls_aset (t : TicketTable) (k : TicketKey) (b' : BranchTable)
    (x : String × String)
    (hgrow : ∀ b, aget? t k = some b → ∀ y, y ∈ rowUrls b → y ∈ rowUrls b') :
    x ∈ ticketUrls (aset t k b') ↔ x ∈ ticketUrls t ∨ x ∈ rowUrls b' := by
  induction t with
  | nil =>
    unfold aset
    rw [mem_ticketUrls_cons, mem_ticketUrls]
    simp
  | cons a rest ih =>
    rcases a with ⟨k0, b0⟩
    unfold aset
    by_cases hk : (k0 == k) = true
    · rw [if_pos hk]
      have hrow : aget? ((k0, b0) :: rest) k = some b0 := by
        unfold aget?
        simp [List.find?, hk]
      have hsub := hgrow b0 hrow
      rw [mem_ticketUrls_cons, mem_ticketUrls_cons]
      constructor
      · rintro (h | h)
        · exact Or.inr h
        · exact Or.inl (Or.inr h)
      · rintro ((h | h) | h)
        · exact Or.inl (hsub x h)
        · exact Or.inr h
        · exact Or.inl h
    · rw [if_neg hk]
      have hk' : (k0 == k) = false := by simpa using hk
      have hrest : ∀ b, aget? rest k = some b → ∀ y, y ∈ rowUrls b → y ∈ rowUrls b' := by
        intro b hrow
        refine hgrow b ?_
        unfold aget? at hrow ⊢
        simp only [List.find?]
        rw [hk']
        exact hrow
      rw [mem_ticketUrls_cons, mem_ticketUrls_cons, ih hrest]
      tauto

theorem mem_of_aget? {κ α : Type} [BEq κ] [LawfulBEq κ] (l : List (κ × α)) (k : κ) (v : α)
    (h : aget? l k = some v) : (k, v) ∈ l := by
  unfold aget? at h
  cases hf : l.find? (fun p => p.1 == k) with
  | none => rw [hf] at h; simp at h
  | some p =>
    rw [hf] at h
    simp only [Option.map_some', Option.some.injEq] at h
    have hm := List.mem_of_find?_eq_some hf
    have hp := List.find?_some hf
    simp only [beq_iff_eq] at hp
    rcases p with ⟨k0, v0⟩
    simp only at hp h
    rw [← hp, ← h]
    exact hm

theorem urlsUnder_aset_ne (r : Results) (cur rel : String) (tbl : TicketTable)
    (h : rel ≠ cur) : urlsUnder (aset r cur tbl) rel = urlsUnder r rel := by
  unfold urlsUnder
  rw [aget?_aset_ne r cur rel tbl (fun he => h he.symm)]

theorem urlsUnder_aset_self (r : Results) (cur : String) (tbl : TicketTable) :
    urlsUnder (aset r cur tbl) cur = ticketUrls tbl := by
  unfold urlsUnder
  rw [aget?_aset_self]
  rfl

theorem urlsUnder_append_empty (r : Results) (ft rel : String) (h : aget? r ft = none) :
    urlsUnder (r ++ [(ft, [])]) rel = urlsUnder r rel := by
  unfold urlsUnder
  by_cases he : rel = ft
  · subst he
    rw [aget?_append_new r rel [] h, h]
    rfl
  · have : (ft == rel) = false := by
      simp only [beq_eq_false_iff_ne, ne_eq]
      exact fun hh => he hh.symm
    rw [aget?_append_ne r ft rel [] this]

theorem mem_rowUpdate_pkgs (jt : Option String) (pkg url d : String) (row : Row)
    (x : String × String) :
    x ∈ (rowUpdate jt pkg url d row).pkgs ↔ x ∈ row.pkgs ∨ x = (pkg, url) := by
  unfold rowUpdate
  exact mem_sortedAddPair row.pkgs (pkg, url) x

theorem mem_ticketUrls_recordRow (jt : Option String) (pkg url d branch : String)
    (tk : TicketKey) (init : Row) (tbl : TicketTable) (x : String × String)
    (hinit : init.pkgs = []) :
    x ∈ ticketUrls (recordRow jt pkg url d branch tk init tbl)
      ↔ x ∈ ticketUrls tbl ∨ x = (pkg, url) := by
  unfold recordRow
  cases htk : aget? tbl tk with
  | none =>
    dsimp only
    rw [mem_ticketUrls_aset tbl tk _ x (by intro b hb; rw [htk] at hb; simp at hb)]
    unfold aset
    rw [mem_rowUrls_cons, mem_rowUrls]
    rw [mem_rowUpdate_pkgs, hinit]
    simp
  | some btbl =>
    dsimp only
    cases hbr : aget? btbl branch with
    | none =>
      dsimp only
      have hgrow : ∀ b, aget? tbl tk = some b → ∀ y, y ∈ rowUrls b →
          y ∈ rowUrls (aset btbl branch (rowUpdate jt pkg url d init)) := by
        intro b hb y hy
        rw [htk] at hb
        simp only [Option.some.injEq] at hb
        subst hb
        rw [mem_rowUrls_aset]
        · exact Or.inl hy
        · intro row hrow z hz
          rw [hbr] at hrow
          simp at hrow
      rw [mem_ticketUrls_aset tbl tk _ x hgrow]
      rw [mem_rowUrls_aset btbl branch _ x
        (by intro row hrow z hz; rw [hbr] at hrow; simp at hrow)]
      rw [mem_rowUpdate_pkgs, hinit]
      constructor
      · rintro (h | h | h | h)
        · exact Or.inl h
        · exact Or.inl (by
            rw [mem_ticketUrls]
            exact ⟨(tk, btbl), mem_of_aget? tbl tk btbl htk, h⟩)
        · simp at h
        · exact Or.inr h
      · rintro (h | h)
        · exact Or.inl h
        · exact Or.inr (Or.inr (Or.inr h))
    | some row =>
      dsimp only
      have hgrow : ∀ b, aget? tbl tk = some b → ∀ y, y ∈ rowUrls b →
          y ∈ rowUrls (aset btbl branch (rowUpdate jt pkg url d row)) := by
        intro b hb y hy
        rw [htk] at hb
        simp only [Option.some.injEq] at hb
        subst hb
        rw [mem_rowUrls_aset]
        · exact Or.inl hy
        · intro row' hrow' z hz
          rw [hbr] at hrow'
          simp only [Option.some.injEq] at hrow'
          subst hrow'
          rw [mem_rowUpdate_pkgs]
          exact Or.inl hz
      rw [mem_ticketUrls_aset tbl tk _ x hgrow]
      rw [mem_rowUrls_aset btbl branch _ x
        (by intro row' hrow' z hz
            rw [hbr] at hrow'
            simp only [Option.some.injEq] at hrow'
            subst hrow'
            rw [mem_rowUpdate_pkgs]
            exact Or.inl hz)]
      rw [mem_rowUpdate_pkgs]
      constructor
      · rintro (h | h | h | h)
        · exact Or.inl h
        · exact Or.inl (by
            rw [mem_ticketUrls]
            exact ⟨(tk, btbl), mem_of_aget? tbl tk btbl htk, h⟩)
        · exact Or.inl (by
            rw [mem_ticketUrls]
            refine ⟨(tk, btbl), mem_of_aget? tbl tk btbl htk, ?_⟩
            rw [mem_rowUrls]
            exact ⟨(branch, row), mem_of_aget? btbl branch row hbr, h⟩)
        · exact Or.inr h
      · rintro (h | h)
        · exact Or.inl h
        · exact Or.inr (Or.inr (Or.inr h))

theorem loopBody_spec (ctx : LoopCtx) (results : Results) (main : TicketTable)
    (current d : String) (item : MergeItem)
    (out : Results × TicketTable × String)
    (h : loopBody ctx (results, main, current) (d, item) = some out) :
    ∃ results1 cur1,
      ((item.tags = none ∧ results1 = results ∧ cur1 = current)
        ∨ (∃ n rest cd, item.tags = some (n :: rest, cd) ∧ cur1 = n
            ∧ results1 = (if amem results n then results else results ++ [(n, [])])))
      ∧ out.2.2 = cur1
      ∧ ((resolveTicket item.ticket item.title = none ∧ out.1 = results1 ∧ out.2.1 = main)
        ∨ (∃ tk, resolveTicket item.ticket item.title = some tk
            ∧ out.1 = aset results1 cur1
                (recordRow (aget? ctx.jira (dmKey (some tk))) ctx.pkg item.url d
                  ctx.branch tk R0 ((aget? results1 cur1).getD []))
            ∧ (out.2.1 = main
              ∨ out.2.1 = recordRow (aget? ctx.jira (dmKey (some tk))) ctx.pkg item.url d
                  ctx.branch tk R0main main))) := by
  unfold loopBody at h
  dsimp only at h
  rcases hts : item.tags with _ | ⟨ns, cd⟩
  · rw [hts] at h
    dsimp only at h
    rcases hres : resolveTicket item.ticket item.title with _ | tk
    · rw [hres] at h
      dsimp only at h
      simp only [Option.some.injEq] at h
      subst h
      exact ⟨results, current, Or.inl ⟨rfl, rfl, rfl⟩, rfl, Or.inl ⟨rfl, rfl, rfl⟩⟩
    · rw [hres] at h
      dsimp only at h
      split at h
      · simp only [Option.some.injEq] at h
        subst h
        exact ⟨results, current, Or.inl ⟨rfl, rfl, rfl⟩, rfl,
          Or.inr ⟨tk, rfl, rfl, Or.inl rfl⟩⟩
      · split at h
        · simp only [Option.some.injEq] at h
          subst h
          exact ⟨results, current, Or.inl ⟨rfl, rfl, rfl⟩, rfl,
            Or.inr ⟨tk, rfl, rfl, Or.inl rfl⟩⟩
        · split at h
          · simp only [Option.some.injEq] at h
            subst h
            exact ⟨results, current, Or.inl ⟨rfl, rfl, rfl⟩, rfl,
              Or.inr ⟨tk, rfl, rfl, Or.inl rfl⟩⟩
          · simp only [Option.some.injEq] at h
            subst h
            exact ⟨results, current, Or.inl ⟨rfl, rfl, rfl⟩, rfl,
              Or.inr ⟨tk, rfl, rfl, Or.inr rfl⟩⟩
  · rcases ns with _ | ⟨n, rest⟩
    · rw [hts] at h
      dsimp only at h
      exact absurd h (by simp)
    · rw [hts] at h
      dsimp only at h
      rcases hres : resolveTicket item.ticket item.title with _ | tk
      · rw [hres] at h
        dsimp only at h
        simp only [Option.some.injEq] at h
        subst h
        exact ⟨(if amem results n then results else results ++ [(n, [])]), n,
          Or.inr ⟨n, rest, cd, rfl, rfl, rfl⟩, rfl, Or.inl ⟨rfl, rfl, rfl⟩⟩
      · rw [hres] at h
        dsimp only at h
        split at h
        · simp only [Option.some.injEq] at h
          subst h
          exact ⟨(if amem results n then results else results ++ [(n, [])]), n,
            Or.inr ⟨n, rest, cd, rfl, rfl, rfl⟩, rfl,
            Or.inr ⟨tk, rfl, rfl, Or.inl rfl⟩⟩
        · split at h
          · simp only [Option.some.injEq] at h
            subst h
            exact ⟨(if amem results n then results else results ++ [(n, [])]), n,
              Or.inr ⟨n, rest, cd, rfl, rfl, rfl⟩, rfl,
              Or.inr ⟨tk, rfl, rfl, Or.inl rfl⟩⟩
          · split at h
            · simp only [Option.some.injEq] at h
              subst h
              exact ⟨(if amem results n then results else results ++ [(n, [])]), n,
                Or.inr ⟨n, rest, cd, rfl, rfl, rfl⟩, rfl,
                Or.inr ⟨tk, rfl, rfl, Or.inl rfl⟩⟩
            · simp only [Option.some.injEq] at h
              subst h
              exact ⟨(if amem results n then results else results ++ [(n, [])]), n,
                Or.inr ⟨n, rest, cd, rfl, rfl, rfl⟩, rfl,
                Or.inr ⟨tk, rfl, rfl, Or.inr rfl⟩⟩

theorem results1_urls (results : Results) (n : String) :
    ∀ rel, urlsUnder (if amem results n then results else results ++ [(n, [])]) rel
      = urlsUnder results rel := by
  intro rel
  by_cases hm : amem results n = true
  · rw [if_pos hm]
  · have hm' : amem results n = false := by simpa using hm
    rw [if_neg (by simp [hm'])]
    exact urlsUnder_append_empty results n rel ((amem_eq_false_iff results n).mp hm')

theorem results1_aget? (results : Results) (n : String) :
    ∀ rel, rel ≠ n →
      aget? (if amem results n then results else results ++ [(n, [])]) rel
        = aget? results rel := by
  intro rel hrel
  by_cases hm : amem results n = true
  · rw [if_pos hm]
  · have hm' : amem results n = false := by simpa using hm
    rw [if_neg (by simp [hm'])]
    refine aget?_append_ne results n rel [] ?_
    simp only [beq_eq_false_iff_ne, ne_eq]
    exact fun hh => hrel hh.symm

theorem loopBody_none_effect (ctx : LoopCtx) (results : Results) (main : TicketTable)
    (current d : String) (item : MergeItem) (out : Results × TicketTable × String)
    (hres : resolveTicket item.ticket item.title = none)
    (h : loopBody ctx (results, main, current) (d, item) = some out) :
    (∀ rel, urlsUnder out.1 rel = urlsUnder results rel)
    ∧ out.2.1 = main
    ∧ ((item.tags = none ∧ out.2.2 = current)
        ∨ (∃ n rest cd, item.tags = some (n :: rest, cd) ∧ out.2.2 = n))
    ∧ (∀ rel, rel ≠ out.2.2 → aget? out.1 rel = aget? results rel) := by
  obtain ⟨results1, cur1, hshape, hcur, hmain⟩ := loopBody_spec ctx results main current d item out h
  rcases hmain with ⟨-, hout1, hmain⟩ | ⟨tk, htk, -, -⟩
  · rcases hshape with ⟨hts, hr1, hc1⟩ | ⟨n, rest, cd, hts, hc1, hr1⟩
    · subst hr1
      subst hc1
      exact ⟨fun rel => by rw [hout1], hmain, Or.inl ⟨hts, hcur⟩,
        fun rel _ => by rw [hout1]⟩
    · subst hc1
      refine ⟨fun rel => by rw [hout1, hr1]; exact results1_urls results cur1 rel, hmain,
        Or.inr ⟨cur1, rest, cd, hts, hcur⟩, fun rel hrel => ?_⟩
      rw [hout1, hr1]
      exact results1_aget? results cur1 rel (by rw [hcur] at hrel; exact hrel)
  · rw [htk] at hres
    exact absurd hres (by simp)

theorem loopBody_some_effect (ctx : LoopCtx) (results : Results) (main : TicketTable)
    (current d : String) (item : MergeItem) (out : Results × TicketTable × String)
    (tk : TicketKey)
    (hres : resolveTicket item.ticket item.title = some tk)
    (h : loopBody ctx (results, main, current) (d, item) = some out) :
    (∀ rel x, x ∈ urlsUnder out.1 rel ↔
      (x ∈ urlsUnder results rel ∨ (rel = out.2.2 ∧ x = (ctx.pkg, item.url))))
    ∧ ((item.tags = none ∧ out.2.2 = current)
        ∨ (∃ n rest cd, item.tags = some (n :: rest, cd) ∧ out.2.2 = n))
    ∧ (∀ rel, rel ≠ out.2.2 → aget? out.1 rel = aget? results rel) := by
  obtain ⟨results1, cur1, hshape, hcur, hmain⟩ := loopBody_spec ctx results main current d item out h
  rcases hmain with ⟨hn, -, -⟩ | ⟨tk', htk', hout1, -⟩
  · rw [hres] at hn
    exact absurd hn (by simp)
  · rw [hres] at htk'
    simp only [Option.some.injEq] at htk'
    subst htk'
    have hr1urls : ∀ rel, urlsUnder results1 rel = urlsUnder results rel := by
      rcases hshape with ⟨-, hr1, -⟩ | ⟨n, rest, cd, -, -, hr1⟩
      · subst hr1
        exact fun rel => rfl
      · subst hr1
        exact results1_urls results n
    have hr1get : ∀ rel, rel ≠ cur1 → aget? results1 rel = aget? results rel := by
      rcases hshape with ⟨-, hr1, hc1⟩ | ⟨n, rest, cd, -, hc1, hr1⟩
      · subst hr1
        exact fun rel _ => rfl
      · subst hr1
        subst hc1
        exact results1_aget? results cur1
    refine ⟨?_, ?_, ?_⟩
    · intro rel x
      by_cases hrel : rel = cur1
      · subst hrel
        rw [hout1, hcur]
        rw [urlsUnder_aset_self]
        rw [mem_ticketUrls_recordRow _ _ _ _ _ _ _ _ _ rfl]
        rw [show ticketUrls ((aget? results1 rel).getD []) = urlsUnder results1 rel from rfl]
        rw [hr1urls rel]
        simp
      · rw [hout1]
        rw [urlsUnder_aset_ne results1 cur1 rel _ hrel]
        rw [hr1urls rel, hcur]
        constructor
        · exact Or.inl
        · rintro (hx | ⟨hx, -⟩)
          · exact hx
          · exact absurd hx hrel
    · rcases hshape with ⟨hts, -, hc1⟩ | ⟨n, rest, cd, hts, hc1, -⟩
      · subst hc1
        exact Or.inl ⟨hts, hcur⟩
      · subst hc1
        exact Or.inr ⟨cur1, rest, cd, hts, hcur⟩
    · intro rel hrel
      rw [hcur] at hrel
      rw [hout1, aget?_aset_ne results1 cur1 rel _ (fun he => hrel he.symm)]
      exact hr1get rel hrel

theorem loopBody_isSome (ctx : LoopCtx) (st : Results × TicketTable × String)
    (d : String) (item : MergeItem)
    (htags : item.tags = none ∨ ∃ n rest cd, item.tags = some (n :: rest, cd)) :
    (loopBody ctx st (d, item)).isSome = true := by
  rcases st with ⟨results, main, current⟩
  unfold loopBody
  dsimp only
  rcases htags with hts | ⟨n, rest, cd, hts⟩
  · rw [hts]
    dsimp only
    cases resolveTicket item.ticket item.title with
    | none => rfl
    | some tk =>
      dsimp only
      split
      · rfl
      · split
        · rfl
        · split
          · rfl
          · rfl
  · rw [hts]
    dsimp only
    cases resolveTicket item.ticket item.title with
    | none => rfl
    | some tk =>
      dsimp only
      split
      · rfl
      · split
        · rfl
        · split
          · rfl
          · rfl

theorem charListLt_irrefl (l : List Char) : charListLt l l = false := by
  induction l with
  | nil => rfl
  | cons a as ih =>
    unfold charListLt
    simp only [lt_irrefl, if_false]
    exact ih

theorem strLt_irrefl (a : String) : strLt a a = false :=
  charListLt_irrefl a.data

theorem charListLt_asymm (l m : List Char) (h : charListLt l m = true) :
    charListLt m l = false := by
  induction l generalizing m with
  | nil =>
    cases m with
    | nil => simp [charListLt] at h
    | cons b bs => rfl
  | cons a as ih =>
    cases m with
    | nil => simp [charListLt] at h
    | cons b bs =>
      unfold charListLt at h ⊢
      by_cases hab : a.toNat < b.toNat
      · have hba : ¬b.toNat < a.toNat := by omega
        rw [if_neg hba, if_pos hab]
      · rw [if_neg hab] at h
        by_cases hba : b.toNat < a.toNat
        · rw [if_pos hba] at h
          exact absurd h (by simp)
        · rw [if_neg hba] at h ⊢
          rw [if_neg hab]
          exact ih bs h

theorem strLt_asymm (a b : String) (h : strLt a b = true) : strLt b a = false :=
  charListLt_asymm a.data b.data h

theorem urlsUnder_init (rel : String) :
    urlsUnder ([("~untagged", ([] : TicketTable))]) rel = [] := by
  unfold urlsUnder aget?
  simp only [List.find?]
  by_cases h : ("~untagged" == rel) = true
  · rw [h]
    rfl
  · have h' : ("~untagged" == rel) = false := by simpa using h
    rw [h']
    rfl

theorem walk_untagged (ctx : LoopCtx) (seg : List (String × MergeItem)) :
    ∀ (results : Results) (main : TicketTable) (current : String),
    (∀ p ∈ seg, p.2.tags = none) →
    (∀ p ∈ seg, (resolveTicket p.2.ticket p.2.title).isSome = true) →
    ∃ out, seg.foldlM (loopBody ctx) (results, main, current) = some out
      ∧ out.2.2 = current
      ∧ (∀ rel x, x ∈ urlsUnder out.1 rel ↔
          (x ∈ urlsUnder results rel
            ∨ (rel = current ∧ ∃ p ∈ seg, x = (ctx.pkg, p.2.url))))
      ∧ (∀ rel, rel ≠ current → aget? out.1 rel = aget? results rel) := by
  induction seg with
  | nil =>
    intro results main current _ _
    refine ⟨(results, main, current), rfl, rfl, ?_, fun rel _ => rfl⟩
    intro rel x
    simp
  | cons p ps ih =>
    intro results main current hunt hres
    have hp1 : p.2.tags = none := hunt p (List.mem_cons_self ..)
    have hp2 := hres p (List.mem_cons_self ..)
    have hsome := loopBody_isSome ctx (results, main, current) p.1 p.2 (Or.inl hp1)
    rcases h1 : loopBody ctx (results, main, current) (p.1, p.2) with _ | out1
    · rw [show ((p.1, p.2) : String × MergeItem) = p from rfl] at h1
      rw [h1] at hsome
      simp at hsome
    · rw [show ((p.1, p.2) : String × MergeItem) = p from rfl] at h1
      rcases htk : resolveTicket p.2.ticket p.2.title with _ | tk
      · rw [htk] at hp2
        simp at hp2
      · obtain ⟨hurls1, hshape1, hget1⟩ :=
          loopBody_some_effect ctx results main current p.1 p.2 out1 tk htk h1
        have hcur1 : out1.2.2 = current := by
          rcases hshape1 with ⟨-, hc⟩ | ⟨n, rest, cd, hts, -⟩
          · exact hc
          · rw [hp1] at hts
            exact absurd hts (by simp)
        obtain ⟨out, hout, hcur, hurls, hget⟩ := ih out1.1 out1.2.1 out1.2.2
          (fun q hq => hunt q (List.mem_cons_of_mem _ hq))
          (fun q hq => hres q (List.mem_cons_of_mem _ hq))
        refine ⟨out, ?_, by rw [hcur, hcur1], ?_, ?_⟩
        · rw [List.foldlM_cons, h1]
          rw [show ((out1.1, out1.2.1, out1.2.2) : Results × TicketTable × String)
            = out1 from rfl] at hout
          exact hout
        · intro rel x
          rw [hurls rel x, hurls1 rel x, hcur1]
          constructor
          · rintro ((hx | ⟨hrel, hx⟩) | ⟨hrel, q, hq, hx⟩)
            · exact Or.inl hx
            · exact Or.inr ⟨hrel, p, List.mem_cons_self .., hx⟩
            · exact Or.inr ⟨hrel, q, List.mem_cons_of_mem _ hq, hx⟩
          · rintro (hx | ⟨hrel, q, hq, hx⟩)
            · exact Or.inl (Or.inl hx)
            · rcases List.mem_cons.mp hq with rfl | hq'
              · exact Or.inl (Or.inr ⟨hrel, hx⟩)
              · exact Or.inr ⟨hrel, q, hq', hx⟩
        · intro rel hrel
          rw [hget rel (by rw [hcur1]; exact hrel)]
          exact hget1 rel (by rw [hcur1]; exact hrel)

theorem walk_tagged_step (ctx : LoopCtx) (d : String) (it : MergeItem) (name cd : String)
    (tk : TicketKey) (results : Results) (main : TicketTable) (current : String)
    (htags : it.tags = some ([name], cd))
    (htk : resolveTicket it.ticket it.title = some tk) :
    ∃ out, loopBody ctx (results, main, current) (d, it) = some out
      ∧ out.2.2 = name
      ∧ (∀ rel x, x ∈ urlsUnder out.1 rel ↔
          (x ∈ urlsUnder results rel ∨ (rel = name ∧ x = (ctx.pkg, it.url))))
      ∧ (∀ rel, rel ≠ name → aget? out.1 rel = aget? results rel) := by
  have hsome := loopBody_isSome ctx (results, main, current) d it
    (Or.inr ⟨name, [], cd, htags⟩)
  rcases h1 : loopBody ctx (results, main, current) (d, it) with _ | out
  · rw [h1] at hsome
    simp at hsome
  · obtain ⟨hurls, hshape, hget⟩ :=
      loopBody_some_effect ctx results main current d it out tk htk h1
    have hcur : out.2.2 = name := by
      rcases hshape with ⟨hts, -⟩ | ⟨n, rest, cd', hts, hc⟩
      · rw [htags] at hts
        exact absurd hts (by simp)
      · rw [htags] at hts
        simp only [Option.some.injEq, Prod.mk.injEq, List.cons.injEq] at hts
        rw [hc, hts.1.1]
    refine ⟨out, rfl, hcur, ?_, ?_⟩
    · intro rel x
      rw [hurls rel x, hcur]
    · intro rel hrel
      exact hget rel (by rw [hcur]; exact hrel)

theorem walk_heads_only (ctx : LoopCtx) (rel2 : String)
    (items : List (String × MergeItem)) :
    ∀ (results : Results) (main : TicketTable) (cur : String),
    cur ≠ rel2 → aget? results rel2 = none →
    (∀ p ∈ items, p.2.tags = none
      ∨ ∃ n rest cd, p.2.tags = some (n :: rest, cd) ∧ n ≠ rel2) →
    ∀ out, items.foldlM (loopBody ctx) (results, main, cur) = some out →
      aget? out.1 rel2 = none := by
  induction items with
  | nil =>
    intro results main cur hcur hget _ out hout
    simp only [List.foldlM_nil] at hout
    simp only [pure, Option.some.injEq] at hout
    rw [← hout]
    exact hget
  | cons p ps ih =>
    intro results main cur hcur hget hshape out hout
    rw [List.foldlM_cons] at hout
    rcases h1 : loopBody ctx (results, main, cur) p with _ | out1
    · rw [h1] at hout
      simp at hout
    · rw [h1] at hout
      simp only [Option.bind_eq_bind, Option.some_bind] at hout
      have h1' : loopBody ctx (results, main, cur) (p.1, p.2) = some out1 := by
        rw [show ((p.1, p.2) : String × MergeItem) = p from rfl]
        exact h1
      have hkey : out1.2.2 ≠ rel2 ∧ aget? out1.1 rel2 = none := by
        rcases hres : resolveTicket p.2.ticket p.2.title with _ | tk
        · obtain ⟨-, -, hsh, hpr⟩ :=
            loopBody_none_effect ctx results main cur p.1 p.2 out1 hres h1'
          have hne : out1.2.2 ≠ rel2 := by
            rcases hsh with ⟨-, hc⟩ | ⟨n, rest, cd, hts, hc⟩
            · rw [hc]
              exact hcur
            · rcases hshape p (List.mem_cons_self ..) with hnone | ⟨n', rest', cd', hts', hne'⟩
              · rw [hnone] at hts
                exact absurd hts (by simp)
              · rw [hts'] at hts
                simp only [Option.some.injEq, Prod.mk.injEq, List.cons.injEq] at hts
                rw [hc, ← hts.1.1]
                exact hne'
          exact ⟨hne, by rw [hpr rel2 (fun he => hne he.symm)]; exact hget⟩
        · obtain ⟨-, hsh, hpr⟩ :=
            loopBody_some_effect ctx results main cur p.1 p.2 out1 tk hres h1'
          have hne : out1.2.2 ≠ rel2 := by
            rcases hsh with ⟨-, hc⟩ | ⟨n, rest, cd, hts, hc⟩
            · rw [hc]
              exact hcur
            · rcases hshape p (List.mem_cons_self ..) with hnone | ⟨n', rest', cd', hts', hne'⟩
              · rw [hnone] at hts
                exact absurd hts (by simp)
              · rw [hts'] at hts
                simp only [Option.some.injEq, Prod.mk.injEq, List.cons.injEq] at hts
                rw [hc, ← hts.1.1]
                exact hne'
          exact ⟨hne, by rw [hpr rel2 (fun he => hne he.symm)]; exact hget⟩
      have := ih out1.1 out1.2.1 out1.2.2 hkey.1 hkey.2
        (fun q hq => hshape q (List.mem_cons_of_mem _ hq)) out
      rw [show ((out1.1, out1.2.1, out1.2.2) : Results × TicketTable × String)
        = out1 from rfl] at this
      exact this hout

theorem C1aux_window (ctx : LoopCtx) (lname fname cdL cdF dF dL : String)
    (itF itL : MergeItem) (A B C : List (String × MergeItem))
    (hitL : itL.tags = some ([lname], cdL))
    (hitF : itF.tags = some ([fname], cdF))
    (huA : ∀ p ∈ A, p.2.tags = none) (huB : ∀ p ∈ B, p.2.tags = none)
    (huC : ∀ p ∈ C, p.2.tags = none)
    (hres : ∀ p ∈ C ++ [(dF, itF)] ++ B ++ [(dL, itL)] ++ A,
      (resolveTicket p.2.ticket p.2.title).isSome = true)
    (hdA : ∀ p ∈ A, strLt dL p.1 = true)
    (hdB : ∀ p ∈ B, strLt dF p.1 = true ∧ strLt p.1 dL = true)
    (hdC : ∀ p ∈ C, strLt p.1 dF = true)
    (hFL : strLt dF dL = true)
    (hlname : lname ≠ "~untagged")
    (hlf : lname ≠ fname)
    (hnodup : ((C ++ [(dF, itF)] ++ B ++ [(dL, itL)] ++ A).map
      (fun p => p.2.url)).Nodup) :
    ∃ out, branchWalk ctx ([("~untagged", [])], [])
        (C ++ [(dF, itF)] ++ B ++ [(dL, itL)] ++ A) = some out
      ∧ ∀ p ∈ C ++ [(dF, itF)] ++ B ++ [(dL, itL)] ++ A,
          ((ctx.pkg, p.2.url) ∈ urlsUnder out.1 lname
            ↔ (strLt dF p.1 = true ∧ strLt dL p.1 = false)) := by
  have hmem : ∀ p, p ∈ C ++ [(dF, itF)] ++ B ++ [(dL, itL)] ++ A
      ↔ (p ∈ C ∨ p = (dF, itF) ∨ p ∈ B ∨ p = (dL, itL) ∨ p ∈ A) := by
    intro p
    simp only [List.mem_append, List.mem_singleton]
    tauto
  -- ticket keys of the two tagged merges
  have hresL : (resolveTicket itL.ticket itL.title).isSome = true := by
    have := hres (dL, itL) (by rw [hmem]; tauto)
    exact this
  have hresF : (resolveTicket itF.ticket itF.title).isSome = true := by
    have := hres (dF, itF) (by rw [hmem]; tauto)
    exact this
  rw [Option.isSome_iff_exists] at hresL hresF
  obtain ⟨tkL, htkL⟩ := hresL
  obtain ⟨tkF, htkF⟩ := hresF
  -- stage 1: A.reverse from the initial state
  obtain ⟨out1, hw1, hc1, hu1, hg1⟩ := walk_untagged ctx A.reverse
    [("~untagged", [])] [] "~untagged"
    (fun p hp => huA p (List.mem_reverse.mp hp))
    (fun p hp => hres p (by rw [hmem]; exact Or.inr (Or.inr (Or.inr (Or.inr
      (List.mem_reverse.mp hp))))))
  -- stage 2: the last-tag merge
  obtain ⟨out2, hw2, hc2, hu2, hg2⟩ := walk_tagged_step ctx dL itL lname cdL tkL
    out1.1 out1.2.1 out1.2.2 hitL htkL
  -- stage 3: B.reverse
  obtain ⟨out3, hw3, hc3, hu3, hg3⟩ := walk_untagged ctx B.reverse
    out2.1 out2.2.1 out2.2.2
    (fun p hp => huB p (List.mem_reverse.mp hp))
    (fun p hp => hres p (by rw [hmem]; exact Or.inr (Or.inr (Or.inl
      (List.mem_reverse.mp hp)))))
  -- stage 4: the first-tag merge
  obtain ⟨out4, hw4, hc4, hu4, hg4⟩ := walk_tagged_step ctx dF itF fname cdF tkF
    out3.1 out3.2.1 out3.2.2 hitF htkF
  -- stage 5: C.reverse
  obtain ⟨out5, hw5, hc5, hu5, hg5⟩ := walk_untagged ctx C.reverse
    out4.1 out4.2.1 out4.2.2
    (fun p hp => huC p (List.mem_reverse.mp hp))
    (fun p hp => hres p (by rw [hmem]; exact Or.inl (List.mem_reverse.mp hp)))
  refine ⟨out5, ?_, ?_⟩
  · unfold branchWalk
    have hrev : (C ++ [(dF, itF)] ++ B ++ [(dL, itL)] ++ A).reverse
        = A.reverse ++ [(dL, itL)] ++ B.reverse ++ [(dF, itF)] ++ C.reverse := by
      simp [List.reverse_append]
    rw [hrev]
    have hw2' : loopBody ctx out1 (dL, itL) = some out2 := hw2
    have hw3' : List.foldlM (loopBody ctx) out2 B.reverse = some out3 := hw3
    have hw4' : loopBody ctx out3 (dF, itF) = some out4 := hw4
    have hw5' : List.foldlM (loopBody ctx) out4 C.reverse = some out5 := hw5
    dsimp only
    rw [List.foldlM_append, List.foldlM_append, List.foldlM_append, List.foldlM_append, hw1]
    simp only [Option.bind_eq_bind, Option.some_bind, List.foldlM_cons, hw2',
      List.foldlM_nil, Option.pure_def, hw3', hw4']
    exact hw5'
  · -- membership characterisation under lname
    have hchar : ∀ x, x ∈ urlsUnder out5.1 lname
        ↔ (x = (ctx.pkg, itL.url) ∨ ∃ p ∈ B, x = (ctx.pkg, p.2.url)) := by
      intro x
      rw [hu5 lname x, hu4 lname x, hu3 lname x, hu2 lname x, hu1 lname x]
      rw [urlsUnder_init lname]
      rw [hc2]
      constructor
      · rintro (((((hx | ⟨he, -⟩) | ⟨-, hx⟩) | ⟨he, p, hp, hx⟩) | ⟨he, -⟩) | ⟨he, -⟩)
        · simp at hx
        · exact absurd he hlname
        · exact Or.inl hx
        · exact Or.inr ⟨p, List.mem_reverse.mp hp, hx⟩
        · exact absurd he hlf
        · rw [hc4] at he
          exact absurd he hlf
      · rintro (hx | ⟨p, hp, hx⟩)
        · exact Or.inl (Or.inl (Or.inl (Or.inr ⟨rfl, hx⟩)))
        · exact Or.inl (Or.inl (Or.inr ⟨rfl, p, List.mem_reverse.mpr hp, hx⟩))
    intro p hp
    rw [hchar ((ctx.pkg, p.2.url))]
    have hpmem := hp
    rw [hmem] at hpmem
    constructor
    · rintro (hx | ⟨q, hq, hx⟩)
      · -- p's url equals the last-tag merge url, so p is that merge
        have hurl : p.2.url = itL.url := by
          simpa using congrArg Prod.snd hx
        have hpeq : p = (dL, itL) := by
          refine List.inj_on_of_nodup_map hnodup hp ?_ hurl
          rw [hmem]
          tauto
        rw [hpeq]
        exact ⟨hFL, strLt_irrefl dL⟩
      · have hurl : p.2.url = q.2.url := by
          simpa using congrArg Prod.snd hx
        have hpeq : p = q := by
          refine List.inj_on_of_nodup_map hnodup hp ?_ hurl
          rw [hmem]
          tauto
        rw [hpeq]
        obtain ⟨h1, h2⟩ := hdB q hq
        exact ⟨h1, strLt_asymm _ _ h2⟩
    · rintro ⟨hwin1, hwin2⟩
      rcases hpmem with hpc | hpf | hpb | hpl | hpa
      · have := hdC p hpc
        rw [strLt_asymm _ _ this] at hwin1
        exact absurd hwin1 (by simp)
      · rw [hpf] at hwin1
        simp only at hwin1
        rw [strLt_irrefl dF] at hwin1
        exact absurd hwin1 (by simp)
      · exact Or.inr ⟨p, hpb, rfl⟩
      · rw [hpl]
        exact Or.inl rfl
      · have := hdA p hpa
        rw [this] at hwin2
        exact absurd hwin2 (by simp)

/-- Claim C1: for a release branch window bounded by a first-tag merge at
date `dF` and a last-tag merge at date `dL`, the merge loop of
`ChangeLogData.process` attributes to the last tag's release exactly the
merges whose date lies in the half-open interval `(dF, dL]` — the merge at
`dL` itself is included, the merge at `dF` is excluded — provided every
merge carries a resolvable ticket (ticketless merges are the subject of
C6).  And when the first and last tag share one merge record (the
zero-width window: identical commit dates collapse both tags onto a single
entry of the date-keyed merge dict), the later tag's release receives no
merges at all. -/
theorem C1_attribution_window :
    (∀ (ctx : LoopCtx) (lname fname cdL cdF dF dL : String)
        (itF itL : MergeItem) (A B C : List (String × MergeItem)),
      itL.tags = some ([lname], cdL) →
      itF.tags = some ([fname], cdF) →
      (∀ p ∈ A, p.2.tags = none) →
      (∀ p ∈ B, p.2.tags = none) →
      (∀ p ∈ C, p.2.tags = none) →
      (∀ p ∈ C ++ [(dF, itF)] ++ B ++ [(dL, itL)] ++ A,
        (resolveTicket p.2.ticket p.2.title).isSome = true) →
      (∀ p ∈ A, strLt dL p.1 = true) →
      (∀ p ∈ B, strLt dF p.1 = true ∧ strLt p.1 dL = true) →
      (∀ p ∈ C, strLt p.1 dF = true) →
      strLt dF dL = true →
      lname ≠ "~untagged" →
      lname ≠ fname →
      (((C ++ [(dF, itF)] ++ B ++ [(dL, itL)] ++ A).map
        (fun p => p.2.url)).Nodup) →
      ∃ out, branchWalk ctx ([("~untagged", [])], [])
          (C ++ [(dF, itF)] ++ B ++ [(dL, itL)] ++ A) = some out
        ∧ ∀ p ∈ C ++ [(dF, itF)] ++ B ++ [(dL, itL)] ++ A,
            ((ctx.pkg, p.2.url) ∈ urlsUnder out.1 lname
              ↔ (strLt dF p.1 = true ∧ strLt dL p.1 = false)))
  ∧ (∀ (ctx : LoopCtx) (lname fname cd d : String) (it : MergeItem)
        (A C : List (String × MergeItem)),
      it.tags = some ([fname, lname], cd) →
      fname ≠ lname →
      lname ≠ "~untagged" →
      (∀ p ∈ A, p.2.tags = none) →
      (∀ p ∈ C, p.2.tags = none) →
      ∀ out, branchWalk ctx ([("~untagged", [])], [])
          (C ++ [(d, it)] ++ A) = some out →
        aget? out.1 lname = none) := by
  constructor
  · intro ctx lname fname cdL cdF dF dL itF itL A B C
      h1 h2 h3 h4 h5 h6 h7 h8 h9 h10 h11 h12 h13
    exact C1aux_window ctx lname fname cdL cdF dF dL itF itL A B C
      h1 h2 h3 h4 h5 h6 h7 h8 h9 h10 h11 h12 h13
  · intro ctx lname fname cd d it A C hit hfl hlu hA hC out hout
    unfold branchWalk at hout
    have hbeq : ("~untagged" == lname) = false := by
      simp only [beq_eq_false_iff_ne, ne_eq]
      exact fun h => hlu h.symm
    refine walk_heads_only ctx lname (C ++ [(d, it)] ++ A).reverse
      [("~untagged", [])] [] "~untagged"
      (fun h => hlu h.symm) ?_ ?_ out hout
    · simp [aget?, List.find?, hbeq]
    · intro p hp
      rcases List.mem_append.mp (List.mem_reverse.mp hp) with hu | hpa
      · rcases List.mem_append.mp hu with hpc | hpf
        · exact Or.inl (hC p hpc)
        · right
          refine ⟨fname, [lname], cd, ?_, hfl⟩
          rcases List.mem_singleton.mp hpf with rfl
          exact hit
      · exact Or.inl (hA p hpa)

def ctxC1 : LoopCtx :=
  ⟨"pkgA", "main", ReleaseType.REGULAR, [], [], [], "w.2024.01"⟩

def itFC1 : MergeItem := ⟨"tickets/DM-101", some (["23.0.1"], "cF"), "uF", "t"⟩

def itLC1 : MergeItem := ⟨"tickets/DM-102", some (["23.0.2"], "cL"), "uL", "t"⟩

def mergesC1 : List (String × MergeItem) :=
  [("2024-01-02", ⟨"tickets/DM-105", none, "uC", "t"⟩)]
    ++ [("2024-01-08", itFC1)]
    ++ [("2024-01-10", ⟨"tickets/DM-104", none, "uB", "t"⟩)]
    ++ [("2024-01-15", itLC1)]
    ++ [("2024-01-20", ⟨"tickets/DM-103", none, "uA", "t"⟩)]

def itZW : MergeItem :=
  ⟨"tickets/DM-106", some (["23.0.1", "23.0.2"], "cZ"), "uZ", "t"⟩

def mergesZW : List (String × MergeItem) :=
  [] ++ [("2024-01-08", itZW)]
    ++ [("2024-01-20", ⟨"tickets/DM-107", none, "uD", "t"⟩)]

theorem C1_attribution_window_witness :
    (∃ out, branchWalk ctxC1 ([("~untagged", [])], []) mergesC1 = some out
      ∧ ∀ p ∈ mergesC1, ((ctxC1.pkg, p.2.url) ∈ urlsUnder out.1 "23.0.2"
          ↔ (strLt "2024-01-08" p.1 = true ∧ strLt "2024-01-15" p.1 = false)))
  ∧ (∀ out, branchWalk ctxC1 ([("~untagged", [])], []) mergesZW = some out →
      aget? out.1 "23.0.2" = none) :=
  ⟨C1_attribution_window.1 ctxC1 "23.0.2" "23.0.1" "cL" "cF"
      "2024-01-08" "2024-01-15" itFC1 itLC1
      [("2024-01-20", ⟨"tickets/DM-103", none, "uA", "t"⟩)]
      [("2024-01-10", ⟨"tickets/DM-104", none, "uB", "t"⟩)]
      [("2024-01-02", ⟨"tickets/DM-105", none, "uC", "t"⟩)]
      (by decide) (by decide) (by decide) (by decide) (by decide) (by decide)
      (by decide) (by decide) (by decide) (by decide) (by decide) (by decide)
      (by decide),
   C1_attribution_window.2 ctxC1 "23.0.2" "23.0.1" "cZ" "2024-01-08" itZW
      [("2024-01-20", ⟨"tickets/DM-107", none, "uD", "t"⟩)] []
      (by decide) (by decide) (by decide) (by decide) (by decide)⟩

def ctxC6 : LoopCtx :=
  ⟨"pkgB", "main", ReleaseType.REGULAR, [], [], [], "w.2024.01"⟩

/-- Claim C6 counterexample: a merge whose branch ref and title both lack a
DM number is dropped by the merge loop — the walk returns the seed state
unchanged, with no ticket=None row — contradicting "recorded with
ticket=None rather than dropped". -/
theorem C6_none_dropped_counterexample :
    resolveTicket "u/jdoe/fix-build" "Fix the build" = none
    ∧ branchWalk ctxC6 ([("~untagged", [])], [])
        [("2024-01-05", ⟨"u/jdoe/fix-build", none, "uX", "Fix the build"⟩)]
      = some ([("~untagged", [])], [], "~untagged") := by
  constructor
  · decide
  · decide

/-- Claim C6 (amended): the ticket is resolved from the head-branch ref
first (as a digit string), and only when the ref yields nothing from the PR
title (as an integer); but a merge for which neither source yields a number
is dropped by the `continue` of the loop — the state passes through
unchanged and no row with ticket=None is recorded. -/
theorem C6_ticket_resolution_amended :
    (∀ ref title s, valid_ticket ref = some s →
      resolveTicket ref title = some (TicketKey.str s))
  ∧ (∀ ref title n, valid_ticket ref = none → ticket_number title = some n →
      resolveTicket ref title = some (TicketKey.int n))
  ∧ (∀ ref title, valid_ticket ref = none → ticket_number title = none →
      resolveTicket ref title = none)
  ∧ (∀ (ctx : LoopCtx) (results : Results) (main : TicketTable)
        (current d : String) (item : MergeItem),
      item.tags = none →
      resolveTicket item.ticket item.title = none →
      loopBody ctx (results, main, current) (d, item)
        = some (results, main, current)) := by
  refine ⟨?_, ?_, ?_, ?_⟩
  · intro ref title s h
    simp [resolveTicket, h]
  · intro ref title n h1 h2
    simp [resolveTicket, h1, h2]
  · intro ref title h1 h2
    simp [resolveTicket, h1, h2]
  · intro ctx results main current d item htags hres
    simp only [loopBody, htags, hres]

theorem C6_ticket_resolution_amended_witness :
    resolveTicket "tickets/DM-123" "DM-9 t" = some (TicketKey.str "123")
    ∧ resolveTicket "u/x/branch" "DM-456 fix" = some (TicketKey.int 456)
    ∧ resolveTicket "u/x/branch" "no ticket" = none
    ∧ loopBody ctxC6 ([("~untagged", [])], [], "~untagged")
        ("2024-01-05", ⟨"u/x/branch", none, "uY", "no ticket"⟩)
      = some ([("~untagged", [])], [], "~untagged") :=
  ⟨C6_ticket_resolution_amended.1 "tickets/DM-123" "DM-9 t" "123" (by decide),
   C6_ticket_resolution_amended.2.1 "u/x/branch" "DM-456 fix" 456
     (by decide) (by decide),
   C6_ticket_resolution_amended.2.2.1 "u/x/branch" "no ticket"
     (by decide) (by decide),
   C6_ticket_resolution_amended.2.2.2 ctxC6 [("~untagged", [])] [] "~untagged"
     "2024-01-05" ⟨"u/x/branch", none, "uY", "no ticket"⟩ (by decide) (by decide)⟩

def tagW9 : TagEntry :=
  ⟨"w.2024.01", ⟨some "2024-01-05T00:00:00Z",
    some (some ⟨some "T1", "2024-01-05T00:00:00Z"⟩)⟩⟩

def ghW9 : GHData :=
  ⟨[("pkga", [tagW9])],
   [("pkga", [("main", [("2024-02-01T00:00:00Z", ⟨"DM-1", some "M1", "u1", "t"⟩)])])],
   [("pkga", ⟨"o", "pkga", "main"⟩)],
   [("pkga", "pkga")]⟩

/-- Claim C9 counterexample: a weekly run is not a pure function of the
fetched snapshot — the `~main` bucket's tag date is stamped with
`datetime.utcnow()`, so the same snapshot processed at two different
wall-clock instants yields different outputs. -/
theorem C9_clock_counterexample :
    process "2024-06-01T00:00:00Z" ghW9 [] "w.2024.01" ReleaseType.WEEKLY []
      ≠ process "2025-06-01T00:00:00Z" ghW9 [] "w.2024.01" ReleaseType.WEEKLY [] := by
  decide

/-- Claim C9 (amended): the reconciliation pass depends only on the fetched
snapshot and one wall-clock reading: runs at an equal `utcnow` value agree
(and the `package_diff` argument is ignored), a REGULAR run is
clock-independent outright, and the release/ticket table (first output
component) is clock-independent for every release type — only the weekly
`~main` entry of the tag-date map carries the wall-clock stamp. -/
theorem C9_determinism_amended :
    (∀ (now : String) (gh : GHData) (jira : List (String × String))
        (lw : String) (rt : ReleaseType)
        (pd1 pd2 : List (String × (List String × List String))),
      process now gh jira lw rt pd1 = process now gh jira lw rt pd2)
  ∧ (∀ (now1 now2 : String) (gh : GHData) (jira : List (String × String))
        (lw : String)
        (pd1 pd2 : List (String × (List String × List String))),
      process now1 gh jira lw ReleaseType.REGULAR pd1
        = process now2 gh jira lw ReleaseType.REGULAR pd2)
  ∧ (∀ (now1 now2 : String) (gh : GHData) (jira : List (String × String))
        (lw : String) (rt : ReleaseType)
        (pd1 pd2 : List (String × (List String × List String))),
      (process now1 gh jira lw rt pd1).map Prod.fst
        = (process now2 gh jira lw rt pd2).map Prod.fst) := by
  refine ⟨?_, ?_, ?_⟩
  · intro now gh jira lw rt pd1 pd2
    rfl
  · intro now1 now2 gh jira lw pd1 pd2
    unfold process
    cases h : processCore gh jira lw ReleaseType.REGULAR with
    | none => rfl
    | some st =>
      obtain ⟨results, main, td⟩ := st
      simp only [Option.bind_eq_bind, Option.some_bind]
      have hb : (ReleaseType.REGULAR == ReleaseType.WEEKLY) = false := rfl
      rw [hb]
      simp only [Bool.false_and, if_neg (by simp : ¬ (false = true))]
  · intro now1 now2 gh jira lw rt pd1 pd2
    unfold process
    cases h : processCore gh jira lw rt with
    | none => rfl
    | some st =>
      obtain ⟨results, main, td⟩ := st
      simp only [Option.bind_eq_bind, Option.some_bind]
      split
      · rfl
      · rfl

/-! ## Release merger (ChangeLog.merge_releases, changelog.py lines 369-410) -/

/-- Lookup in a Python dict keyed by `Tag` objects: `__hash__`/`__eq__`
compare the integer ordering keys. -/
def tagGet? {α : Type} (l : List (Tag × α)) (k : Tag) : Option α :=
  (l.find? (fun p => p.1.beq k)).map (·.2)

/-- Insertion into a Tag-keyed Python dict: a key that compares equal to an
existing one keeps the originally inserted key object. -/
def tagSet {α : Type} (l : List (Tag × α)) (k : Tag) (v : α) : List (Tag × α) :=
  match l with
  | [] => [(k, v)]
  | (k', v') :: rest =>
    if k'.beq k then (k', v) :: rest else (k', v') :: tagSet rest k v

/-- `sortedcontainers.SortedSet.add` for strings under Python string order. -/
def ssetAdd (l : List String) (x : String) : List String :=
  match l with
  | [] => [x]
  | a :: as =>
    if strLt x a then x :: a :: as
    else if x == a then a :: as
    else a :: ssetAdd as x

/-- `SortedSet.update`: add every element of the iterable. -/
def ssetUpdate (l : List String) (xs : List String) : List String :=
  xs.foldl ssetAdd l

/-- The value dict of one `package_diff[ReleaseType.REGULAR]` entry as read
by `merge_releases`: the `pkgs`, `removed` and `added` name sets. -/
structure PkgDiff where
  pkgs : List String
  removed : List String
  added : List String
deriving DecidableEq, Repr

/-- The keying rule shared by the `last_rel` writes (lines 381-384) and reads
(lines 391-394): a first-of-series tag keys by its exact name when
`mergeFirst` is false, every other tag by its `base_name`. -/
def lastRelKey (mergeFirst : Bool) (t : Tag) : String :=
  if t.is_first_release_tag && !mergeFirst then t.name else t.base_name

/-- The `last_rel` map of `merge_releases` (lines 371-384): the `tag_dates`
keys as tags in sorted order, filtered to regular tags with major ≥ 16, a
later (greater) tag overwriting an earlier one under the same key. -/
def lastRelMap (tagNames : List String) (mergeFirst : Bool) : List (String × Tag) :=
  (tagNames.foldl (fun l n => sortedInsertTag l (Tag.of n)) []).foldl
    (fun lr rel =>
      if rel.desc.1 ≠ "regular" ∨ rel.desc.2.headD 0 < 16 then lr
      else aset lr (lastRelKey mergeFirst rel) rel)
    []

/-- One iteration of the second loop of `merge_releases` (lines 385-398):
skip invalid or pre-16 tags and `None` data, look the tag up in `last_rel`
(an uncaught KeyError — `none` — when absent), then fold the ticket table
into the row of the looked-up tag's name via `dict.update`. -/
def mergeRowStep (last_rel : List (String × Tag)) (mergeFirst : Bool)
    (res : Results) (td : String × Option TicketTable) : Option Results :=
  if (Tag.of td.1).is_valid = false ∨ (Tag.of td.1).desc.2.headD 0 < 16 then
    some res
  else
    match td.2 with
    | none => some res
    | some data =>
      match aget? last_rel (lastRelKey mergeFirst (Tag.of td.1)) with
      | none => none
      | some nameTag =>
        some (aset res nameTag.name
          (data.foldl (fun c kv => aset c kv.1 kv.2)
            ((aget? res nameTag.name).getD [])))

/-- One iteration of the third loop of `merge_releases` (lines 399-409):
skip invalid or pre-16 tags and tags whose `base_name` is not in `last_rel`,
then union the three package-name sets into the looked-up tag's entry. -/
def mergePkgStep (last_rel : List (String × Tag))
    (pk : List (Tag × PkgDiff)) (td : Tag × PkgDiff) : List (Tag × PkgDiff) :=
  if td.1.is_valid = false ∨ td.1.desc.2.headD 0 < 16 then pk
  else
    match aget? last_rel td.1.base_name with
    | none => pk
    | some nameTag =>
      tagSet pk nameTag
        ⟨ssetUpdate ((tagGet? pk nameTag).getD ⟨[], [], []⟩).pkgs td.2.pkgs,
         ssetUpdate ((tagGet? pk nameTag).getD ⟨[], [], []⟩).removed td.2.removed,
         ssetUpdate ((tagGet? pk nameTag).getD ⟨[], [], []⟩).added td.2.added⟩

/-- `ChangeLog.merge_releases`.  `results_in` and `tag_dates` are the two
components of `release_data` (ticket tables held as `Option` for the
`data is None` guard); `package_diff` is its `ReleaseType.REGULAR` entry.
The result is `none` where the source raises the uncaught KeyError of
`last_rel[...]` in the second loop. -/
def merge_releases (results_in : List (String × Option TicketTable))
    (tag_dates : List (String × (String × String)))
    (package_diff : List (Tag × PkgDiff)) (mergeFirst : Bool) :
    Option (Results × List (Tag × PkgDiff)) :=
  match results_in.foldlM
      (mergeRowStep (lastRelMap (tag_dates.map Prod.fst) mergeFirst) mergeFirst)
      [] with
  | none => none
  | some result =>
    some (result,
      package_diff.foldl
        (mergePkgStep (lastRelMap (tag_dates.map Prod.fst) mergeFirst)) [])

def rcPairRows : List (String × Option TicketTable) :=
  [("23.0.0.rc1", some [(TicketKey.int 1, [("main", R0)])]),
   ("23.0.0", some [(TicketKey.int 2, [("main", R0)])])]

def rcPairDates : List (String × (String × String)) :=
  [("23.0.0.rc1", ("d", "d")), ("23.0.0", ("d", "d"))]

/-- Claim C4 counterexample: with the merge-candidates flag FALSE, the
non-first candidate tag 23.0.0.rc2 does not keep a row of its own — it still
keys by `base_name` and folds into the final 23.0.0 entry, contradicting
"each rc keeps its own release row" for the false flag. -/
theorem C4_nonfirst_fold_counterexample :
    merge_releases
      [("23.0.0.rc2", some [(TicketKey.int 1, [("main", R0)])]),
       ("23.0.0", some [(TicketKey.int 2, [("main", R0)])])]
      [("23.0.0.rc2", ("d", "d")), ("23.0.0", ("d", "d"))]
      [] false
    = some ([("23.0.0",
        [(TicketKey.int 1, [("main", R0)]), (TicketKey.int 2, [("main", R0)])])],
        []) := by
  decide

/-- Claim C4 (amended): with the flag true every tag keys by `base_name`, so
23.0.0.rc1 and 23.0.0 collapse into one 23.0.0 entry; with the flag false
ONLY a first-of-series tag (rc 1 with patch 0, or the static override) keys
by its exact name and stays separate — every other candidate still keys by
`base_name` and folds into the final release row. -/
theorem C4_candidate_keying_amended :
    (∀ t : Tag, lastRelKey true t = t.base_name)
  ∧ (∀ t : Tag, t.is_first_release_tag = true → lastRelKey false t = t.name)
  ∧ (∀ t : Tag, t.is_first_release_tag = false → lastRelKey false t = t.base_name)
  ∧ merge_releases rcPairRows rcPairDates [] true
      = some ([("23.0.0",
          [(TicketKey.int 1, [("main", R0)]), (TicketKey.int 2, [("main", R0)])])],
          [])
  ∧ merge_releases rcPairRows rcPairDates [] false
      = some ([("23.0.0.rc1", [(TicketKey.int 1, [("main", R0)])]),
               ("23.0.0", [(TicketKey.int 2, [("main", R0)])])],
          []) := by
  refine ⟨?_, ?_, ?_, by decide, by decide⟩
  · intro t
    simp [lastRelKey]
  · intro t h
    simp [lastRelKey, h]
  · intro t h
    simp [lastRelKey, h]

theorem C4_candidate_keying_amended_witness :
    lastRelKey true (Tag.of "24.0.0.rc3") = (Tag.of "24.0.0.rc3").base_name
    ∧ lastRelKey false (Tag.of "23.0.0.rc1") = (Tag.of "23.0.0.rc1").name
    ∧ lastRelKey false (Tag.of "23.0.0.rc2") = (Tag.of "23.0.0.rc2").base_name :=
  ⟨C4_candidate_keying_amended.1 (Tag.of "24.0.0.rc3"),
   C4_candidate_keying_amended.2.1 (Tag.of "23.0.0.rc1") (by decide),
   C4_candidate_keying_amended.2.2.1 (Tag.of "23.0.0.rc2") (by decide)⟩

theorem mem_aset {κ α : Type} [BEq κ] (l : List (κ × α)) (k : κ) (v : α)
    (x : κ × α) (h : x ∈ aset l k v) : x = (k, v) ∨ x ∈ l := by
  induction l with
  | nil =>
    simp only [aset, List.mem_singleton] at h
    exact Or.inl h
  | cons a as ih =>
    obtain ⟨k', v'⟩ := a
    simp only [aset] at h
    by_cases hk : (k' == k) = true
    · rw [if_pos hk] at h
      rcases List.mem_cons.mp h with h1 | h2
      · exact Or.inl h1
      · exact Or.inr (List.mem_cons_of_mem _ h2)
    · rw [if_neg hk] at h
      rcases List.mem_cons.mp h with h1 | h2
      · exact Or.inr (h1 ▸ List.mem_cons_self _ _)
      · rcases ih h2 with h3 | h4
        · exact Or.inl h3
        · exact Or.inr (List.mem_cons_of_mem _ h4)

theorem keys_mem_aset {κ α : Type} [BEq κ] (l : List (κ × α)) (k : κ) (v : α)
    (x : κ) (h : x ∈ (aset l k v).map Prod.fst) : x = k ∨ x ∈ l.map Prod.fst := by
  rcases List.mem_map.mp h with ⟨p, hp, hpx⟩
  rcases mem_aset l k v p hp with h1 | h2
  · left
    rw [← hpx, h1]
  · right
    rw [← hpx]
    exact List.mem_map_of_mem _ h2

theorem keys_mem_tagSet {α : Type} (l : List (Tag × α)) (k : Tag) (v : α)
    (x : Tag × α) (h : x ∈ tagSet l k v) : x.1 = k ∨ x.1 ∈ l.map Prod.fst := by
  induction l with
  | nil =>
    simp only [tagSet, List.mem_singleton] at h
    rw [h]
    exact Or.inl rfl
  | cons a as ih =>
    obtain ⟨k', v'⟩ := a
    simp only [tagSet] at h
    by_cases hk : (k'.beq k) = true
    · rw [if_pos hk] at h
      rcases List.mem_cons.mp h with h1 | h2
      · right
        rw [h1]
        simp
      · right
        simp only [List.map_cons, List.mem_cons]
        exact Or.inr (List.mem_map_of_mem _ h2)
    · rw [if_neg hk] at h
      rcases List.mem_cons.mp h with h1 | h2
      · right
        rw [h1]
        simp
      · rcases ih h2 with h3 | h4
        · exact Or.inl h3
        · right
          simp only [List.map_cons, List.mem_cons]
          exact Or.inr h4

/-- Every tag stored in `last_rel` passed the `rel_type != 'regular' or
version[0] < 16` filter of the first merge loop. -/
theorem lastRelMap_inv (tagNames : List String) (mergeFirst : Bool) :
    ∀ p ∈ lastRelMap tagNames mergeFirst,
      p.2.desc.1 = "regular" ∧ 16 ≤ p.2.desc.2.headD 0 := by
  unfold lastRelMap
  generalize (tagNames.foldl (fun l n => sortedInsertTag l (Tag.of n)) [])
    = releases
  suffices h : ∀ (lr0 : List (String × Tag)),
      (∀ p ∈ lr0, p.2.desc.1 = "regular" ∧ 16 ≤ p.2.desc.2.headD 0) →
      ∀ p ∈ releases.foldl
        (fun lr rel =>
          if rel.desc.1 ≠ "regular" ∨ rel.desc.2.headD 0 < 16 then lr
          else aset lr (lastRelKey mergeFirst rel) rel) lr0,
        p.2.desc.1 = "regular" ∧ 16 ≤ p.2.desc.2.headD 0 by
    exact h [] (by simp)
  induction releases with
  | nil =>
    intro lr0 h0 p hp
    exact h0 p hp
  | cons r rs ih =>
    intro lr0 h0 p hp
    rw [List.foldl_cons] at hp
    refine ih _ ?_ p hp
    intro q hq
    by_cases hc : r.desc.1 ≠ "regular" ∨ r.desc.2.headD 0 < 16
    · rw [if_pos hc] at hq
      exact h0 q hq
    · rw [if_neg hc] at hq
      push_neg at hc
      rcases mem_aset _ _ _ _ hq with h1 | h2
      · rw [h1]
        exact ⟨hc.1, hc.2⟩
      · exact h0 q h2

/-- Every key of one `mergeRowStep` output is the old key set plus the name
of a tag stored in `last_rel`. -/
theorem mergeRowStep_key_cases (last_rel : List (String × Tag))
    (mergeFirst : Bool) (res : Results) (td : String × Option TicketTable)
    (res1 : Results) (h : mergeRowStep last_rel mergeFirst res td = some res1) :
    ∀ nm ∈ res1.map Prod.fst,
      nm ∈ res.map Prod.fst ∨ ∃ t k, (k, t) ∈ last_rel ∧ nm = t.name := by
  unfold mergeRowStep at h
  split at h
  · obtain rfl := Option.some.inj h
    intro nm hnm
    exact Or.inl hnm
  · split at h
    · obtain rfl := Option.some.inj h
      intro nm hnm
      exact Or.inl hnm
    · rcases hget : aget? last_rel (lastRelKey mergeFirst (Tag.of td.1)) with _ | nameTag
      · rw [hget] at h
        exact absurd h (by simp)
      · rw [hget] at h
        obtain rfl := Option.some.inj h
        intro nm hnm
        rcases keys_mem_aset _ _ _ _ hnm with h1 | h2
        · exact Or.inr ⟨nameTag, lastRelKey mergeFirst (Tag.of td.1),
            mem_of_aget? _ _ _ hget, h1⟩
        · exact Or.inl h2

theorem mergeRowsFold_keys (last_rel : List (String × Tag)) (mergeFirst : Bool)
    (rows : List (String × Option TicketTable)) :
    ∀ (res0 res : Results),
      rows.foldlM (mergeRowStep last_rel mergeFirst) res0 = some res →
      ∀ nm ∈ res.map Prod.fst,
        nm ∈ res0.map Prod.fst ∨ ∃ t k, (k, t) ∈ last_rel ∧ nm = t.name := by
  induction rows with
  | nil =>
    intro res0 res h nm hnm
    rw [List.foldlM_nil] at h
    simp only [pure, Option.some.injEq] at h
    rw [h]
    exact Or.inl hnm
  | cons r rs ih =>
    intro res0 res h nm hnm
    rw [List.foldlM_cons] at h
    rcases h1 : mergeRowStep last_rel mergeFirst res0 r with _ | res1
    · rw [h1] at h
      simp at h
    · rw [h1] at h
      simp only [Option.bind_eq_bind, Option.some_bind] at h
      rcases ih res1 res h nm hnm with h2 | h2
      · exact mergeRowStep_key_cases last_rel mergeFirst res0 r res1 h1 nm h2
      · exact Or.inr h2

/-- Every key of the package fold is the old key set plus a tag stored in
`last_rel`. -/
theorem mergePkgFold_keys (last_rel : List (String × Tag))
    (items : List (Tag × PkgDiff)) :
    ∀ (pk0 : List (Tag × PkgDiff)),
      ∀ t ∈ (items.foldl (mergePkgStep last_rel) pk0).map Prod.fst,
        t ∈ pk0.map Prod.fst ∨ ∃ k, (k, t) ∈ last_rel := by
  induction items with
  | nil =>
    intro pk0 t ht
    exact Or.inl ht
  | cons r rs ih =>
    intro pk0 t ht
    rw [List.foldl_cons] at ht
    rcases ih (mergePkgStep last_rel pk0 r) t ht with h1 | h2
    · unfold mergePkgStep at h1
      split at h1
      · exact Or.inl h1
      · rcases hget : aget? last_rel r.1.base_name with _ | nameTag
        · rw [hget] at h1
          exact Or.inl h1
        · rw [hget] at h1
          rcases List.mem_map.mp h1 with ⟨p, hp, hpx⟩
          rcases keys_mem_tagSet _ _ _ _ hp with h3 | h4
          · exact Or.inr ⟨r.1.base_name, by rw [← hpx, h3]; exact mem_of_aget? _ _ _ hget⟩
          · exact Or.inl (hpx ▸ h4)
    · exact Or.inr h2

/-- Claim C5: every release name in the merged ticket table is the name of a
regular tag with major ≥ 16, and every key of the merged package-diff table
is such a tag — no release below the major-16 cutoff appears in either part
of the `merge_releases` output. -/
theorem C5_major_cutoff_invariant (results_in : List (String × Option TicketTable))
    (tag_dates : List (String × (String × String)))
    (package_diff : List (Tag × PkgDiff)) (mergeFirst : Bool)
    (out : Results × List (Tag × PkgDiff))
    (h : merge_releases results_in tag_dates package_diff mergeFirst = some out) :
    (∀ nm ∈ out.1.map Prod.fst,
      ∃ t : Tag, nm = t.name ∧ t.desc.1 = "regular" ∧ 16 ≤ t.desc.2.headD 0)
    ∧ (∀ t ∈ out.2.map Prod.fst,
      t.desc.1 = "regular" ∧ 16 ≤ t.desc.2.headD 0) := by
  unfold merge_releases at h
  rcases hfold : results_in.foldlM
      (mergeRowStep (lastRelMap (tag_dates.map Prod.fst) mergeFirst) mergeFirst)
      [] with _ | result
  · rw [hfold] at h
    exact absurd h (by simp)
  · rw [hfold] at h
    obtain rfl := Option.some.inj h
    constructor
    · intro nm hnm
      rcases mergeRowsFold_keys _ _ _ _ _ hfold nm hnm with h1 | ⟨t, k, hmem, hname⟩
      · simp at h1
      · exact ⟨t, hname, lastRelMap_inv _ _ (k, t) hmem⟩
    · intro t ht
      rcases mergePkgFold_keys _ _ _ t ht with h1 | ⟨k, hmem⟩
      · simp at h1
      · exact lastRelMap_inv _ _ (k, t) hmem

theorem C5_major_cutoff_invariant_witness :
    (∀ nm ∈ (([("23.0.0",
        [(TicketKey.int 1, [("main", R0)]), (TicketKey.int 2, [("main", R0)])])],
        ([] : List (Tag × PkgDiff))) : Results × List (Tag × PkgDiff)).1.map Prod.fst,
      ∃ t : Tag, nm = t.name ∧ t.desc.1 = "regular" ∧ 16 ≤ t.desc.2.headD 0)
    ∧ (∀ t ∈ (([("23.0.0",
        [(TicketKey.int 1, [("main", R0)]), (TicketKey.int 2, [("main", R0)])])],
        ([] : List (Tag × PkgDiff))) : Results × List (Tag × PkgDiff)).2.map Prod.fst,
      t.desc.1 = "regular" ∧ 16 ≤ t.desc.2.headD 0) :=
  C5_major_cutoff_invariant rcPairRows rcPairDates [] true
    ([("23.0.0",
        [(TicketKey.int 1, [("main", R0)]), (TicketKey.int 2, [("main", R0)])])],
      []) (by decide)

/-! ## Fetch retry and merge (ChangeLog._fetch / _get_package_repos) -/

/-- The dict `_fetch` fills on a successful attempt: the `repo`, `pulls`,
`tags` and `branches` keys. -/
structure FetchData where
  repo : String
  pulls : List (String × List (String × PullItem))
  tags : List TagEntry
  branches : List String
deriving DecidableEq, Repr

/-- `ChangeLog._fetch` (changelog.py lines 276-306): `retries = 5` loop
iterations; each element of `attempts` is what that iteration's GitHub calls
would produce (`none` = the calls raise and the bare `except` swallows it).
The first success within the budget returns the filled dict; when every
attempt fails the loop falls through and returns the still-EMPTY dict —
no exception escapes. -/
def fetch (attempts : List (Option FetchData)) : Option FetchData :=
  ((attempts.take 5).filterMap id).head?

/-- The future-collection step of `_get_package_repos` (lines 351-360).
`future.result()` sits in the `try`, but the `data["repo"]` subscript sits in
the `else` block, which the `except Exception` does NOT cover: an empty dict
from a fully failed fetch raises an uncaught KeyError that propagates out of
the whole run.  `Except.error` marks that abort. -/
def mergeFetchResult (acc : List (String × FetchData)) (data : Option FetchData) :
    Except String (List (String × FetchData)) :=
  match data with
  | none => Except.error "KeyError: repo"
  | some d => Except.ok (aset acc d.repo d)

/-- Collecting every completed fetch into the shared result dict. -/
def getPackageRepos (fetched : List (Option FetchData)) :
    Except String (List (String × FetchData)) :=
  fetched.foldlM mergeFetchResult []

/-- Claim C7: the retry budget of `_fetch` is honoured — attempts beyond the
first five are never consulted, and a repository whose attempts all fail
yields the empty dict rather than an error.  But the claimed degradation is
absent: because `data["repo"]` is evaluated outside the `try`/`except` of
`_get_package_repos`, one fully failed repository aborts the whole collection
with an uncaught KeyError instead of being dropped while the run continues. -/
theorem C7_fetch_failure_aborts :
    (∀ attempts : List (Option FetchData),
      fetch attempts = fetch (attempts.take 5))
  ∧ (∀ attempts : List (Option FetchData), (∀ a ∈ attempts, a = none) →
      fetch attempts = none)
  ∧ (∀ good : FetchData,
      getPackageRepos [some good, none] = Except.error "KeyError: repo") := by
  refine ⟨?_, ?_, ?_⟩
  · intro attempts
    simp [fetch, List.take_take]
  · intro attempts h
    have hnil : (attempts.take 5).filterMap id = [] := by
      rw [List.filterMap_eq_nil_iff]
      intro a ha
      rw [h a (List.mem_of_mem_take ha)]
      rfl
    simp [fetch, hnil]
  · intro good
    rfl

theorem C7_fetch_failure_aborts_witness :
    fetch [none, none, none, none, none, some ⟨"late", [], [], []⟩]
      = fetch ([none, none, none, none, none,
          some ⟨"late", [], [], []⟩].take 5)
    ∧ fetch [none, none] = none
    ∧ getPackageRepos [some ⟨"r", [], [], []⟩, none]
      = Except.error "KeyError: repo" :=
  ⟨C7_fetch_failure_aborts.1
      [none, none, none, none, none, some ⟨"late", [], [], []⟩],
   C7_fetch_failure_aborts.2.1 [none, none] (by simp),
   C7_fetch_failure_aborts.2.2 ⟨"r", [], [], []⟩⟩
